import Mathlib

/-! # Event discovery helpers of `protoc-gen-go-tetragon` (package `common`)

A shallow embedding of `cmd/protoc-gen-go-tetragon/common/common.go`.

* Go strings are Lean `String`s; the byte-wise string functions of the Go
  standard library (`strings.TrimPrefix`, `filepath.Join`, ...) are given on
  the character list of the string, which agrees with the byte-wise reading
  because every separator and every fixed text involved is ASCII.
* The `protogen` descriptors are records holding exactly the members the
  code reads: `GoIdent.GoName`, `Desc.Name()`, `Desc.Fields()`, `Oneofs`,
  `Fields`, `Messages`.
* A `for ... range` loop that appends to a slice is a left fold, a loop that
  stops at the first hit with `break` is `List.find?`, and a
  `map[string]struct{}` is a duplicate-free list of keys.
* `(result, error)` is `Except String`, the text of the error being the
  text handed to `fmt.Errorf`.
-/

namespace Tetragon.Common

/-! ## Go standard library: `strings` -/

/-- The function `strings.HasPrefix(s, pre)`. -/
def HasPrefix (s pre : String) : Bool :=
  pre.data.isPrefixOf s.data

/-- The function `strings.TrimPrefix(s, pre)`: `s[len(pre):]` when `s` starts
with `pre`, and `s` itself otherwise. -/
def TrimPrefix (s pre : String) : String :=
  if HasPrefix s pre then String.mk (s.data.drop pre.data.length) else s

/-! ## Go standard library: `path` and `path/filepath`

The separator is the slash, as on every system the plugin is built for. -/

/-- The function `strings.Join(elems, sep)`. -/
def stringsJoin (elems : List String) (sep : String) : String :=
  String.mk (List.intercalate sep.data (elems.map String.data))

/-- The inner loop of the `..` case of `Clean`, on the output buffer kept
last byte first: `out.w--`, then `out.w--` again for as long as
`out.w > dotdot` and the byte at `out.w` is not a separator. -/
def cleanBacktrack (dotdot : Nat) : List Char → List Char
  | [] => []
  | c :: out => if out.length > dotdot ∧ c ≠ '/' then cleanBacktrack dotdot out else out

/-- The main loop `for r < n` of `Clean`. `rest` is `path[r:]`, `out` is the
output buffer kept last byte first (so `out.w` is `out.length`), and the
first argument bounds the number of rounds (each round consumes a byte of
`rest`, so `len(path)` rounds are enough). -/
def cleanLoop (rooted : Bool) : Nat → List Char → List Char → Nat → List Char
  | 0, _, out, _ => out
  | fuel + 1, rest, out, dotdot =>
    match rest with
    | [] => out
    | c :: t =>
      if c = '/' then
        -- empty path element
        cleanLoop rooted fuel t out dotdot
      else if c = '.' ∧ (t = [] ∨ t.head? = some '/') then
        -- . element
        cleanLoop rooted fuel t out dotdot
      else if c = '.' ∧ t.head? = some '.' ∧ (t.tail = [] ∨ t.tail.head? = some '/') then
        -- .. element: remove to last separator
        if out.length > dotdot then
          cleanLoop rooted fuel t.tail (cleanBacktrack dotdot out) dotdot
        else if !rooted then
          let out1 := if out.length > 0 then '/' :: out else out
          let out2 := '.' :: '.' :: out1
          cleanLoop rooted fuel t.tail out2 out2.length
        else
          cleanLoop rooted fuel t.tail out dotdot
      else
        -- real path element: add slash if needed, then copy the element
        let out1 :=
          if (rooted = true ∧ out.length ≠ 1) ∨ (rooted = false ∧ out.length ≠ 0) then '/' :: out
          else out
        cleanLoop rooted fuel (rest.dropWhile (fun x => x != '/'))
          ((rest.takeWhile (fun x => x != '/')).reverse ++ out1) dotdot

/-- The function `filepath.Clean(path)` (no volume name). -/
def Clean (path : String) : String :=
  if path.data = [] then "."
  else
    let rooted : Bool := path.data.head? = some '/'
    let out :=
      if rooted then cleanLoop rooted path.data.length path.data.tail ['/'] 1
      else cleanLoop rooted path.data.length path.data [] 0
    -- Turn empty string into "."
    if out = [] then "." else String.mk out.reverse

/-- The function `filepath.Join(elem...)`: the elements from the first
non-empty one on, joined by the separator and cleaned. -/
def filepathJoin (elem : List String) : String :=
  match elem.dropWhile (fun e => e == "") with
  | [] => ""
  | e :: es => Clean (stringsJoin (e :: es) "/")

/-- The function `path.Base(path)`: the last element of the path, trailing
slashes removed first. -/
def Base (path : String) : String :=
  if path.data = [] then "."
  else
    let stripped := path.data.reverse.dropWhile (fun x => x == '/')
    let last := (stripped.takeWhile (fun x => x != '/')).reverse
    if last = [] then "/" else String.mk last


/-! ## The `protogen` data model -/

/-- The record `protogen.GoIdent`. -/
structure protogen.GoIdent where
  GoName : String
  GoImportPath : String
  deriving DecidableEq, Repr

/-- What the code reads of a `protoreflect.FieldDescriptor`: its name. -/
structure protoreflect.FieldDescriptor where
  Name : String
  deriving DecidableEq, Repr

/-- What the code reads of a `protoreflect.MessageDescriptor`: its declared
name and its declared fields. -/
structure protoreflect.MessageDescriptor where
  Name : String
  Fields : List protoreflect.FieldDescriptor
  deriving DecidableEq, Repr

/-- What the code reads of a `protoreflect.OneofDescriptor`: its name. -/
structure protoreflect.OneofDescriptor where
  Name : String
  deriving DecidableEq, Repr

/-- The record `protogen.Field`. For a member of a oneof, `GoIdent` names the
generated wrapper type. -/
structure protogen.Field where
  GoIdent : protogen.GoIdent
  Desc : protoreflect.FieldDescriptor
  deriving DecidableEq, Repr

/-- The record `protogen.Oneof`. -/
structure protogen.Oneof where
  Desc : protoreflect.OneofDescriptor
  Fields : List protogen.Field
  deriving DecidableEq, Repr

/-- The record `protogen.Message`. -/
structure protogen.Message where
  GoIdent : protogen.GoIdent
  Desc : protoreflect.MessageDescriptor
  Oneofs : List protogen.Oneof
  deriving DecidableEq, Repr

/-- The record `protogen.File`. -/
structure protogen.File where
  GoImportPath : String
  GeneratedFilenamePrefix : String
  Messages : List protogen.Message
  deriving DecidableEq, Repr

/-! ## `map[string]struct{}` -/

/-- The statement `m[name] = struct{}{}` on a set of strings. -/
def setInsert (m : List String) (name : String) : List String :=
  if name ∈ m then m else m ++ [name]

/-- The test `_, ok := m[name]`. -/
def setHas (m : List String) (name : String) : Bool :=
  decide (name ∈ m)

/-! ## `GetEvents` -/

/-- The text of the error returned when the container message is absent. -/
def errNoGetEventsResponse : String := "Unable to find GetEventsResponse message"

/-- The text of the error returned when the container has no `event` oneof. -/
def errNoEventOneof : String := "Unable to find GetEventsResponse.event"

/-- The expression `strings.TrimPrefix(type_.GoIdent.GoName, "GetEventsResponse_")`. -/
def localName (type_ : protogen.Field) : String :=
  TrimPrefix type_.GoIdent.GoName "GetEventsResponse_"

/-- The function `GetEvents`: the list of all messages that are events. -/
def GetEvents (file : protogen.File) : Except String (List protogen.Message) :=
  match file.Messages.find? (fun msg => msg.GoIdent.GoName == "GetEventsResponse") with
  | none => Except.error errNoGetEventsResponse
  | some getEventsResponse =>
    match getEventsResponse.Oneofs.find? (fun oneof => oneof.Desc.Name == "event") with
    | none => Except.error errNoEventOneof
    | some eventOneof =>
      let validNames : List String :=
        eventOneof.Fields.foldl (fun validNames type_ => setInsert validNames (localName type_)) []
      let events : List protogen.Message :=
        file.Messages.foldl
          (fun events msg => if setHas validNames msg.Desc.Name then events ++ [msg] else events) []
      Except.ok events

/-! ## `EventFieldCheck`, `IsProcessEvent`, `IsParentEvent` -/

/-- The method `FieldDescriptors.ByName`: the first field of that name, if any. -/
def ByName (fields : List protoreflect.FieldDescriptor) (name : String) :
    Option protoreflect.FieldDescriptor :=
  fields.find? (fun fd => fd.Name == name)

/-- The function `EventFieldCheck`: whether the event has the field. -/
def EventFieldCheck (msg : protogen.Message) (field : String) : Bool :=
  if (ByName msg.Desc.Fields field).isSome then true else false

/-- The function `IsProcessEvent`. -/
def IsProcessEvent (msg : protogen.Message) : Bool :=
  EventFieldCheck msg "process"

/-- The function `IsParentEvent`. -/
def IsParentEvent (msg : protogen.Message) : Bool :=
  EventFieldCheck msg "parent"

/-! ## Sample schema files -/

/-- A message without fields or oneofs whose Go name is its declared name. -/
def plainMessage (name : String) : protogen.Message :=
  { GoIdent := { GoName := name, GoImportPath := "example/api" },
    Desc := { Name := name, Fields := [] },
    Oneofs := [] }

/-- A member of a oneof of `GetEventsResponse` whose wrapper type is `goName`. -/
def unionMember (goName : String) : protogen.Field :=
  { GoIdent := { GoName := goName, GoImportPath := "example/api" },
    Desc := { Name := goName } }

/-- A container message with one oneof named `oneofName` and the given members. -/
def containerMessage (oneofName : String) (members : List protogen.Field) :
    protogen.Message :=
  { GoIdent := { GoName := "GetEventsResponse", GoImportPath := "example/api" },
    Desc := { Name := "GetEventsResponse", Fields := members.map (fun f => f.Desc) },
    Oneofs := [{ Desc := { Name := oneofName }, Fields := members }] }

/-- A schema file holding the given messages. -/
def schemaFile (messages : List protogen.Message) : protogen.File :=
  { GoImportPath := "example/api", GeneratedFilenamePrefix := "pkg/api", Messages := messages }

/-! ## `protogen.GeneratedFile` and the identifier helpers -/

/-- The keywords of Go, for which `token.Lookup(s).IsKeyword()` holds. -/
def goKeywords : List String :=
  ["break", "case", "chan", "const", "continue", "default", "defer", "else", "fallthrough",
   "for", "func", "go", "goto", "if", "import", "interface", "map", "package", "range",
   "return", "select", "struct", "switch", "type", "var"]

/-- The function `strs.GoSanitized(s)`: every character that is neither a
letter nor a digit becomes an underscore, and an underscore is put in front
of a keyword and of a text that does not start with a letter. The classes
`unicode.IsLetter` and `unicode.IsDigit` are read on the ASCII range. -/
def GoSanitized (s : String) : String :=
  let mapped : List Char := s.data.map (fun r => if r.isAlpha || r.isDigit then r else '_')
  let startsWithLetter : Bool :=
    match mapped with
    | [] => false
    | r :: _ => r.isAlpha
  if String.mk mapped ∈ goKeywords ∨ startsWithLetter = false then String.mk ('_' :: mapped)
  else String.mk mapped

/-- The function `cleanPackageName(name)` of `protogen`. -/
def cleanPackageName (name : String) : String :=
  GoSanitized name

/-- What the identifier helpers read and write of a `protogen.GeneratedFile`:
the import path of the generated file, the text written so far, and the two
maps that record the packages imported so far and the package names taken. -/
structure protogen.GeneratedFile where
  filename : String
  goImportPath : String
  buf : String
  packageNames : List (String × String)
  usedPackageNames : List String
  deriving DecidableEq, Repr

/-- The loop of `QualifiedGoIdent` that looks for a free package name:
`for i, orig := 1, packageName; g.usedPackageNames[packageName]; i++
{ packageName = orig + strconv.Itoa(i) }`. The first argument bounds the
number of rounds. -/
def uniquePackageName (used : List String) (orig : String) : Nat → Nat → String → String
  | 0, _, packageName => packageName
  | fuel + 1, i, packageName =>
    if setHas used packageName then uniquePackageName used orig fuel (i + 1) (orig ++ toString i)
    else packageName

/-- The method `(*GeneratedFile).QualifiedGoIdent(ident)`: the text to use
for the identifier, together with the file after the call (an import of the
package of the identifier is recorded when it is new). -/
def QualifiedGoIdent (g : protogen.GeneratedFile) (ident : protogen.GoIdent) :
    String × protogen.GeneratedFile :=
  if ident.GoImportPath = g.goImportPath then (ident.GoName, g)
  else
    match g.packageNames.lookup ident.GoImportPath with
    | some packageName => (packageName ++ "." ++ ident.GoName, g)
    | none =>
      let orig := cleanPackageName (Base ident.GoImportPath)
      let packageName := uniquePackageName g.usedPackageNames orig (g.usedPackageNames.length + 1) 1 orig
      (packageName ++ "." ++ ident.GoName,
        { g with
          packageNames := (ident.GoImportPath, packageName) :: g.packageNames,
          usedPackageNames := setInsert g.usedPackageNames packageName })

/-- The variable `TetragonPackageName`. -/
def TetragonPackageName : String := "github.com/cilium/tetragon"

/-- The variable `TetragonApiPackageName`. -/
def TetragonApiPackageName : String := "api/v1/tetragon"

/-- The function `GoIdent`: a qualified go ident as a string for a given import
package and name. -/
def GoIdent (g : protogen.GeneratedFile) (importPath : String) (name : String) :
    String × protogen.GeneratedFile :=
  QualifiedGoIdent g { GoName := name, GoImportPath := importPath }

/-- The function `TetragonIdent`: `GoIdent` with the path to the Tetragon package. -/
def TetragonIdent (g : protogen.GeneratedFile) (importPath : String) (name : String) :
    String × protogen.GeneratedFile :=
  let importPath := filepathJoin [TetragonPackageName, importPath]
  GoIdent g importPath name

/-- The function `TetragonApiIdent`: `GoIdent` with the path to the Tetragon
API package. -/
def TetragonApiIdent (g : protogen.GeneratedFile) (name : String) :
    String × protogen.GeneratedFile :=
  TetragonIdent g TetragonApiPackageName name

/-- A generated file to which nothing has been written yet and for which no import
has been recorded; the only package names taken are predeclared identifiers
of Go. -/
def freshFile : protogen.GeneratedFile :=
  { filename := "pkg/codegen/helpers/helpers.pb.go",
    goImportPath := "example/api/codegen/helpers",
    buf := "",
    packageNames := [],
    usedPackageNames := ["bool", "error", "int", "string", "true", "false", "nil", "len", "new"] }

/-! ## Definitions used to state the properties -/

/-- Whether some member of the union has the local name `name`. -/
def isMemberName (fields : List protogen.Field) (name : String) : Bool :=
  fields.any (fun f => localName f == name)

/-- Replace by `f x` the first element `x` of the list for which `p` holds. -/
def setFirst {α : Type} (p : α → Bool) (f : α → α) : List α → List α
  | [] => []
  | x :: xs => if p x then f x :: xs else x :: setFirst p f xs

/-- The message `msg` with the members of its first oneof named `event`
replaced by `fields`. -/
def withEventMembers (msg : protogen.Message) (fields : List protogen.Field) :
    protogen.Message :=
  { msg with
    Oneofs := setFirst (fun oneof => oneof.Desc.Name == "event")
      (fun oneof => { oneof with Fields := fields }) msg.Oneofs }

/-- The schema file `file` with the members of the event union replaced by
`fields`: the first message whose Go name is `GetEventsResponse` gets them
as the members of its first oneof named `event`; nothing else changes. -/
def withEventFields (file : protogen.File) (fields : List protogen.Field) : protogen.File :=
  { file with
    Messages := setFirst (fun msg => msg.GoIdent.GoName == "GetEventsResponse")
      (fun msg => withEventMembers msg fields) file.Messages }

/-- Two returned lists name the same messages of the file, position by
position: equal descriptors, or the container message before and after its
union was edited. -/
def SameEvents (m m' : protogen.Message) (evs evs' : List protogen.Message) : Prop :=
  List.Forall₂ (fun a b => a = b ∨ (a = m ∧ b = m')) evs evs'

/-- The members `A`, `B` of the sample union. -/
def sampleMembers : List protogen.Field :=
  [unionMember "GetEventsResponse_A", unionMember "GetEventsResponse_B"]

/-- The sample schema: the container with union `A`, `B`, then the messages
`B`, `A`, `C` in this order. -/
def sampleFile : protogen.File :=
  schemaFile [containerMessage "event" sampleMembers,
    plainMessage "B", plainMessage "A", plainMessage "C"]

/-- A union that lists the local name `A` twice. -/
def repeatedMembers : List protogen.Field :=
  [unionMember "GetEventsResponse_A", unionMember "GetEventsResponse_B",
    unionMember "GetEventsResponse_A"]

/-- A schema whose union lists `A`, `B`, `A` and which declares `A` and `B`. -/
def repeatedFile : protogen.File :=
  schemaFile [containerMessage "event" repeatedMembers, plainMessage "A", plainMessage "B"]

/-- A message named `name` that declares fields of the given names and no
oneof. -/
def messageWithFields (name : String) (fieldNames : List String) : protogen.Message :=
  { GoIdent := { GoName := name, GoImportPath := "example/api" },
    Desc := { Name := name, Fields := fieldNames.map (fun n => { Name := n }) },
    Oneofs := [] }

/-- A path element that `Clean` copies as it is: not empty, without a
slash, and neither `.` nor `..`. -/
def GoodSeg (s : List Char) : Prop :=
  s ≠ [] ∧ '/' ∉ s ∧ s ≠ ['.'] ∧ s ≠ ['.', '.']

/-- The text `/s₁/s₂/.../sₙ` for the path elements `s₁`, ..., `sₙ`. -/
def slashed : List (List Char) → List Char
  | [] => []
  | s :: ss => '/' :: s ++ slashed ss

/-! ## Go standard library: `strings.TrimSuffix` and `fmt.Sprintf` -/

/-- The function `strings.HasSuffix(s, suffix)`. -/
def HasSuffix (s suffix : String) : Bool :=
  suffix.data.isSuffixOf s.data

/-- The function `strings.TrimSuffix(s, suffix)`: `s[:len(s)-len(suffix)]` when
`s` ends with `suffix`, and `s` itself otherwise. -/
def TrimSuffix (s suffix : String) : String :=
  if HasSuffix s suffix then String.mk (s.data.take (s.data.length - suffix.data.length)) else s

/-- The text `fmt.Sprintf` puts for operands that no verb of the format
uses: `%!(EXTRA string=x, string=y)`. -/
def sprintfExtra (a : List String) : List Char :=
  "%!(EXTRA ".data ++ List.intercalate ", ".data (a.map (fun x => "string=".data ++ x.data)) ++
    ")".data

/-- The scan of the format by `fmt.Sprintf`, for string operands and the
verb `%s`, the only verb of the formats in the code: `%s` puts the next
operand as it is (`%!s(MISSING)` when none is left), `%%` puts a percent
sign, and any other byte is copied. -/
def sprintfLoop : List Char → List String → List Char
  | [], [] => []
  | [], x :: xs => sprintfExtra (x :: xs)
  | '%' :: 's' :: rest, [] => "%!s(MISSING)".data ++ sprintfLoop rest []
  | '%' :: 's' :: rest, x :: xs => x.data ++ sprintfLoop rest xs
  | '%' :: '%' :: rest, a => '%' :: sprintfLoop rest a
  | c :: rest, a => c :: sprintfLoop rest a

/-- The function `fmt.Sprintf(format, a...)` for string operands. -/
def Sprintf (format : String) (a : List String) : String :=
  String.mk (sprintfLoop format.data a)

/-! ## `NewGeneratedFile` and `FmtErrorf` -/

/-- What `NewGeneratedFile` needs of a `protogen.Plugin`: the names of the
predeclared identifiers of Go (`types.Universe.Names()`), which every new
generated file marks as package names already taken. -/
structure protogen.Plugin where
  universeNames : List String
  deriving DecidableEq, Repr

/-- The method `(*Plugin).NewGeneratedFile(filename, goImportPath)`: a
generated file with an empty buffer and no recorded package. (The plugin
also keeps the new file in its list of generated files.) -/
def protogen.Plugin.NewGeneratedFile (gen : protogen.Plugin) (filename : String)
    (goImportPath : String) : protogen.GeneratedFile :=
  { filename := filename,
    goImportPath := goImportPath,
    buf := "",
    packageNames := [],
    usedPackageNames := gen.universeNames.foldl setInsert [] }

/-- The method `(*GeneratedFile).P(v...)` for string operands: the operands
are written to the buffer one after the other, then a newline. -/
def protogen.GeneratedFile.P (g : protogen.GeneratedFile) (v : List String) :
    protogen.GeneratedFile :=
  { g with buf := v.foldl (fun buf x => buf ++ x) g.buf ++ "\n" }

/-- The variable `TetragonCopyrightHeader`: the license header to prepend to
all generated files. -/
def TetragonCopyrightHeader : String :=
  "// SPDX-License-Identifier: Apache-2.0\n// Copyright Authors of Tetragon"

/-- The function `NewGeneratedFile`: a new codegen package and file in the
project. (The call of the logger, which prints the file name, is left out.) -/
def NewGeneratedFile (gen : protogen.Plugin) (file : protogen.File) (pkg : String) :
    protogen.GeneratedFile :=
  let importPath := filepathJoin [file.GoImportPath, "codegen", pkg]
  let pathSuffix := Base file.GeneratedFilenamePrefix
  let fileName := filepathJoin
    [TrimSuffix file.GeneratedFilenamePrefix pathSuffix, "codegen", pkg, Sprintf "%s.pb.go" [pkg]]
  let g := gen.NewGeneratedFile fileName importPath
  let g := g.P [TetragonCopyrightHeader]
  let g := g.P []
  let g := g.P ["// Code generated by protoc-gen-go-tetragon. DO NOT EDIT"]
  let g := g.P []
  let g := g.P ["package ", pkg]
  let g := g.P []
  g

/-- The function `FmtErrorf`: the text of a call to `fmt.Errorf`, together
with the generated file after the call. -/
def FmtErrorf (g : protogen.GeneratedFile) (fmt_ : String) (args : List String) :
    String × protogen.GeneratedFile :=
  let args := [Sprintf "\"%s\"" [fmt_]] ++ args
  let ident := GoIdent g "fmt" "Errorf"
  (Sprintf "%s(%s)" [ident.1, stringsJoin args ", "], ident.2)

/-- A plugin built with a Go release whose predeclared identifiers are the
listed ones. -/
def samplePlugin : protogen.Plugin :=
  { universeNames := ["any", "bool", "byte", "comparable", "complex128", "complex64", "error",
      "float32", "float64", "int", "int16", "int32", "int64", "int8", "rune", "string", "uint",
      "uint16", "uint32", "uint64", "uint8", "uintptr", "false", "iota", "true", "nil",
      "append", "cap", "clear", "close", "complex", "copy", "delete", "imag", "len", "make",
      "max", "min", "new", "panic", "print", "println", "real", "recover"] }

/-- The value of a decimal digit character. -/
def digitVal (c : Char) : Nat :=
  c.toNat - 48

/-- The number that a list of decimal digits, most significant first, denotes. -/
def decodeDigits (cs : List Char) : Nat :=
  cs.foldl (fun a c => 10 * a + digitVal c) 0

/-- The freshly created file `freshFile` under another name and with some
text already written: an independent buffer in the same state as far as
imports are concerned. -/
def otherFreshFile : protogen.GeneratedFile :=
  { freshFile with filename := "pkg/codegen/helpers/other.pb.go", buf := "// text\n" }

/-- The text made of the given lines, each followed by a newline. -/
def linesText (ls : List String) : String :=
  ls.foldl (fun acc l => acc ++ l ++ "\n") ""

/-- The pieces of a text between its newlines (`strings.Split(s, "\n")`), on
character lists. -/
def splitOnNewline : List Char → List (List Char)
  | [] => [[]]
  | c :: cs =>
    if c = '\n' then [] :: splitOnNewline cs
    else
      match splitOnNewline cs with
      | [] => [[c]]
      | l :: ls => (c :: l) :: ls

/-- The lines of a text. -/
def textLines (s : String) : List String :=
  (splitOnNewline s.data).map String.mk

/-- The lines of a text that are not blank. -/
def nonBlankLines (s : String) : List String :=
  (textLines s).filter (fun l => decide (l ≠ ""))

/-- The function `filepath.Dir(path)`: the path up to its last slash, cleaned. -/
def Dir (path : String) : String :=
  Clean (String.mk (path.data.reverse.dropWhile (fun x => x != '/')).reverse)

/-- A schema file whose generated file name starts with `filenamePre`. -/
def fileAt (filenamePre : String) : protogen.File :=
  { GoImportPath := "example/api", GeneratedFilenamePrefix := filenamePre, Messages := [] }

/-- A container message with the given oneofs. -/
def containerWithOneofs (oneofs : List protogen.Oneof) : protogen.Message :=
  { GoIdent := { GoName := "GetEventsResponse", GoImportPath := "example/api" },
    Desc := { Name := "GetEventsResponse", Fields := [] },
    Oneofs := oneofs }

/-- A schema with two messages of Go name `GetEventsResponse`: the first has
two oneofs named `event`, with the members `A` and `B`, the second has one
with the member `C`; then the messages `A`, `B`, `C`. -/
def shadowedFile : protogen.File :=
  schemaFile [
    containerWithOneofs [
      { Desc := { Name := "event" }, Fields := [unionMember "GetEventsResponse_A"] },
      { Desc := { Name := "event" }, Fields := [unionMember "GetEventsResponse_B"] }],
    containerMessage "event" [unionMember "GetEventsResponse_C"],
    plainMessage "A", plainMessage "B", plainMessage "C"]

/-- A schema with two messages of Go name `GetEventsResponse`, of which only
the second has a oneof named `event`. -/
def lateUnionFile : protogen.File :=
  schemaFile [containerMessage "payload" sampleMembers, containerMessage "event" sampleMembers,
    plainMessage "A", plainMessage "B"]

/-- A schema whose union has the one member
`GetEventsResponse_GetEventsResponse_X` and which declares the messages `X`
and `GetEventsResponse_X`. -/
def doubledFile : protogen.File :=
  schemaFile [containerMessage "event" [unionMember "GetEventsResponse_GetEventsResponse_X"],
    plainMessage "X", plainMessage "GetEventsResponse_X"]

/-! ## Auxiliary facts about the two loops of `GetEvents` -/

theorem mem_setInsert (m : List String) (name x : String) :
    x ∈ setInsert m name ↔ x ∈ m ∨ x = name := by
  unfold setInsert
  split
  · constructor
    · intro h; exact Or.inl h
    · rintro (h | h)
      · exact h
      · subst h; assumption
  · simp

theorem mem_foldl_setInsert (fields : List protogen.Field) (init : List String) (x : String) :
    x ∈ fields.foldl (fun validNames type_ => setInsert validNames (localName type_)) init ↔
      x ∈ init ∨ ∃ f ∈ fields, localName f = x := by
  induction fields generalizing init with
  | nil => simp
  | cons f fs ih =>
    simp only [List.foldl_cons, ih, mem_setInsert, List.mem_cons, exists_eq_or_imp]
    constructor
    · rintro ((h | h) | h)
      · exact Or.inl h
      · exact Or.inr (Or.inl h.symm)
      · exact Or.inr (Or.inr h)
    · rintro (h | h | h)
      · exact Or.inl (Or.inl h)
      · exact Or.inl (Or.inr h.symm)
      · exact Or.inr h

theorem foldl_append_if (p : protogen.Message → Bool) (msgs init : List protogen.Message) :
    msgs.foldl (fun events msg => if p msg then events ++ [msg] else events) init =
      init ++ msgs.filter p := by
  induction msgs generalizing init with
  | nil => simp
  | cons a l ih =>
    simp only [List.foldl_cons, ih, List.filter_cons]
    split <;> simp

theorem setHas_validNames (fields : List protogen.Field) (name : String) :
    setHas (fields.foldl (fun validNames type_ => setInsert validNames (localName type_)) []) name =
      isMemberName fields name := by
  rw [Bool.eq_iff_iff]
  simp [setHas, isMemberName, mem_foldl_setInsert]

theorem GetEvents_found (file : protogen.File) (m : protogen.Message) (o : protogen.Oneof)
    (hm : file.Messages.find? (fun msg => msg.GoIdent.GoName == "GetEventsResponse") = some m)
    (ho : m.Oneofs.find? (fun oneof => oneof.Desc.Name == "event") = some o) :
    GetEvents file =
      Except.ok (file.Messages.filter (fun msg => isMemberName o.Fields msg.Desc.Name)) := by
  simp only [GetEvents, hm, ho, foldl_append_if, List.nil_append, setHas_validNames]

theorem isMemberName_iff (fields : List protogen.Field) (name : String) :
    isMemberName fields name = true ↔ ∃ f ∈ fields, localName f = name := by
  simp [isMemberName]

theorem find?_GetEventsResponse_sampleFile :
    sampleFile.Messages.find? (fun msg => msg.GoIdent.GoName == "GetEventsResponse") =
      some (containerMessage "event" sampleMembers) := by
  decide

theorem find?_event_sampleFile :
    (containerMessage "event" sampleMembers).Oneofs.find? (fun oneof => oneof.Desc.Name == "event") =
      some { Desc := { Name := "event" }, Fields := sampleMembers } := by
  decide

theorem find?_setFirst {α : Type} (p : α → Bool) (f : α → α) (hp : ∀ x, p (f x) = p x)
    (l : List α) : (setFirst p f l).find? p = (l.find? p).map f := by
  induction l with
  | nil => rfl
  | cons x xs ih =>
    by_cases hx : p x = true
    · have hfx : p (f x) = true := by rw [hp, hx]
      simp [setFirst, hx, List.find?_cons, hfx]
    · have hfx : ¬ p (f x) = true := by rw [hp]; exact hx
      simp [setFirst, hx, List.find?_cons, ih]

theorem forall₂_filter_setFirst {α : Type} (p q q' : α → Bool) (f : α → α) (m : α)
    (l : List α) (hm : l.find? p = some m)
    (hq : ∀ x ∈ l, q' x = q x) (hqf : q' (f m) = q m) :
    List.Forall₂ (fun a b => a = b ∨ (a = m ∧ b = f m)) (l.filter q) ((setFirst p f l).filter q') := by
  have hrefl : ∀ xs : List α, (∀ x ∈ xs, q' x = q x) →
      List.Forall₂ (fun a b => a = b ∨ (a = m ∧ b = f m)) (xs.filter q) (xs.filter q') := by
    intro xs hxs
    rw [List.filter_congr hxs]
    exact List.forall₂_same.mpr (fun x _ => Or.inl rfl)
  induction l with
  | nil => simp at hm
  | cons x xs ih =>
    have hq' : ∀ y ∈ xs, q' y = q y := fun y hy => hq y (List.mem_cons_of_mem _ hy)
    by_cases hx : p x = true
    · have hxm : x = m := by simpa [List.find?_cons, hx] using hm
      subst hxm
      simp only [setFirst, hx, if_true, List.filter_cons, hqf]
      split
      · exact List.Forall₂.cons (Or.inr ⟨rfl, rfl⟩) (hrefl xs hq')
      · exact hrefl xs hq'
    · have hm' : xs.find? p = some m := by simpa [List.find?_cons, hx] using hm
      have hx' : p x = false := by simpa using hx
      simp only [setFirst, hx', Bool.false_eq_true, if_false, List.filter_cons,
        hq x (List.mem_cons_self _ _)]
      split
      · exact List.Forall₂.cons (Or.inl rfl) (ih hm' hq')
      · exact ih hm' hq'

theorem GetEvents_withEventFields (file : protogen.File) (m : protogen.Message)
    (o : protogen.Oneof) (fields : List protogen.Field)
    (hm : file.Messages.find? (fun msg => msg.GoIdent.GoName == "GetEventsResponse") = some m)
    (ho : m.Oneofs.find? (fun oneof => oneof.Desc.Name == "event") = some o) :
    GetEvents (withEventFields file fields) =
      Except.ok ((withEventFields file fields).Messages.filter
        (fun msg => isMemberName fields msg.Desc.Name)) := by
  have h1 : (withEventFields file fields).Messages.find?
      (fun msg => msg.GoIdent.GoName == "GetEventsResponse") = some (withEventMembers m fields) := by
    simp only [withEventFields]
    rw [find?_setFirst (fun msg : protogen.Message => msg.GoIdent.GoName == "GetEventsResponse")
      (fun msg => withEventMembers msg fields) (fun x => rfl), hm]
    rfl
  have h2 : (withEventMembers m fields).Oneofs.find? (fun oneof => oneof.Desc.Name == "event") =
      some { o with Fields := fields } := by
    simp only [withEventMembers]
    rw [find?_setFirst (fun oneof : protogen.Oneof => oneof.Desc.Name == "event")
      (fun oneof => { oneof with Fields := fields }) (fun x => rfl), ho]
    rfl
  exact GetEvents_found _ _ _ h1 h2

theorem GetEvents_sameEvents (file : protogen.File) (m : protogen.Message)
    (o : protogen.Oneof) (fields : List protogen.Field)
    (hm : file.Messages.find? (fun msg => msg.GoIdent.GoName == "GetEventsResponse") = some m)
    (ho : m.Oneofs.find? (fun oneof => oneof.Desc.Name == "event") = some o)
    (hsame : ∀ msg ∈ file.Messages,
      isMemberName fields msg.Desc.Name = isMemberName o.Fields msg.Desc.Name) :
    ∃ evs evs', GetEvents file = Except.ok evs ∧
      GetEvents (withEventFields file fields) = Except.ok evs' ∧
      SameEvents m (withEventMembers m fields) evs evs' := by
  refine ⟨_, _, GetEvents_found file m o hm ho, GetEvents_withEventFields file m o fields hm ho, ?_⟩
  have hmem : m ∈ file.Messages := List.mem_of_find?_eq_some hm
  exact forall₂_filter_setFirst _ (fun msg => isMemberName o.Fields msg.Desc.Name)
    (fun msg => isMemberName fields msg.Desc.Name) (fun msg => withEventMembers msg fields)
    m file.Messages hm hsame (hsame m hmem)

theorem filter_isMemberName_count (msgs : List protogen.Message) (fields : List protogen.Field)
    (hnodup : (msgs.map (fun msg => msg.Desc.Name)).Nodup)
    (hres : ∀ f ∈ fields, ∃ msg ∈ msgs, msg.Desc.Name = localName f) :
    (msgs.filter (fun msg => isMemberName fields msg.Desc.Name)).length =
        (fields.map localName).toFinset.card ∧
      (msgs.filter (fun msg => isMemberName fields msg.Desc.Name)).Nodup := by
  have hsub : ((msgs.filter (fun msg => isMemberName fields msg.Desc.Name)).map
      (fun msg => msg.Desc.Name)).Sublist (msgs.map (fun msg => msg.Desc.Name)) :=
    List.Sublist.map _ (List.filter_sublist msgs)
  have hnd := hnodup.sublist hsub
  refine ⟨?_, List.Nodup.of_map _ hnd⟩
  have hperm : ((msgs.filter (fun msg => isMemberName fields msg.Desc.Name)).map
      (fun msg => msg.Desc.Name)).Perm (fields.map localName).dedup := by
    rw [List.perm_ext_iff_of_nodup hnd (List.nodup_dedup _)]
    intro x
    simp only [List.mem_map, List.mem_filter, List.mem_dedup, isMemberName_iff]
    constructor
    · rintro ⟨msg, ⟨_, f, hf, hfx⟩, rfl⟩
      exact ⟨f, hf, hfx⟩
    · rintro ⟨f, hf, rfl⟩
      obtain ⟨msg, hmsg, hname⟩ := hres f hf
      exact ⟨msg, ⟨hmsg, f, hf, hname.symm⟩, hname⟩
  rw [List.card_toFinset, ← hperm.length_eq, List.length_map]

/-! ## Auxiliary facts about `Clean` and `filepath.Join` -/

theorem intercalate_slash_cons (s : List Char) (ss : List (List Char)) :
    List.intercalate ['/'] (s :: ss) = s ++ slashed ss := by
  induction ss generalizing s with
  | nil => simp [List.intercalate, slashed]
  | cons t ts ih =>
    have h := ih t
    simp only [List.intercalate, List.intersperse_cons_cons, List.flatten_cons] at h ⊢
    rw [h]
    simp [slashed]

theorem slashed_append (xs ys : List (List Char)) :
    slashed (xs ++ ys) = slashed xs ++ slashed ys := by
  induction xs with
  | nil => rfl
  | cons x xs ih => simp [slashed, ih]

theorem takeWhile_seg (s : List Char) (ss : List (List Char)) (hs : '/' ∉ s) :
    (s ++ slashed ss).takeWhile (fun x => x != '/') = s ∧
      (s ++ slashed ss).dropWhile (fun x => x != '/') = slashed ss := by
  induction s with
  | nil =>
    cases ss with
    | nil => simp [slashed]
    | cons t ts => simp [slashed]
  | cons c s ih =>
    have hc : c ≠ '/' := fun h => hs (h ▸ List.mem_cons_self _ _)
    have hs' : '/' ∉ s := fun h => hs (List.mem_cons_of_mem _ h)
    obtain ⟨h1, h2⟩ := ih hs'
    simp [List.takeWhile_cons, List.dropWhile_cons, hc, h1, h2]

theorem slashed_head (ss : List (List Char)) :
    slashed ss = [] ∨ ∃ t, slashed ss = '/' :: t := by
  cases ss with
  | nil => exact Or.inl rfl
  | cons s ss => exact Or.inr ⟨_, rfl⟩

theorem cleanLoop_seg (fuel : Nat) (s : List Char) (ss : List (List Char)) (out : List Char)
    (dotdot : Nat) (hs : GoodSeg s) :
    cleanLoop false (fuel + 1) (s ++ slashed ss) out dotdot =
      cleanLoop false fuel (slashed ss)
        (s.reverse ++ (if out.length ≠ 0 then '/' :: out else out)) dotdot := by
  obtain ⟨hne, hslash, hdot, hdotdot⟩ := hs
  obtain ⟨htake, hdrop⟩ := takeWhile_seg s ss hslash
  cases s with
  | nil => exact absurd rfl hne
  | cons c s' =>
    have hc : c ≠ '/' := fun h => hslash (h ▸ List.mem_cons_self _ _)
    have hs' : '/' ∉ s' := fun h => hslash (List.mem_cons_of_mem _ h)
    have h2 : ¬ (c = '.' ∧ (s' ++ slashed ss = [] ∨ (s' ++ slashed ss).head? = some '/')) := by
      rintro ⟨rfl, h⟩
      cases s' with
      | nil => exact hdot rfl
      | cons d s'' =>
        rcases h with h | h
        · simp at h
        · simp only [List.cons_append, List.head?_cons, Option.some.injEq] at h
          exact hs' (h ▸ List.mem_cons_self _ _)
    have h3 : ¬ (c = '.' ∧ (s' ++ slashed ss).head? = some '.' ∧
        ((s' ++ slashed ss).tail = [] ∨ (s' ++ slashed ss).tail.head? = some '/')) := by
      rintro ⟨rfl, hhead, h⟩
      cases s' with
      | nil =>
        rcases slashed_head ss with h0 | ⟨t, h0⟩
        · simp [h0] at hhead
        · simp [h0] at hhead
      | cons d s'' =>
        simp only [List.cons_append, List.head?_cons, Option.some.injEq] at hhead
        subst hhead
        cases s'' with
        | nil => exact hdotdot rfl
        | cons e s3 =>
          rcases h with h | h
          · simp at h
          · simp only [List.cons_append, List.tail_cons, List.head?_cons, Option.some.injEq] at h
            exact hs' (List.mem_cons_of_mem _ (h ▸ List.mem_cons_self _ _))
    rw [List.cons_append] at htake hdrop ⊢
    rw [cleanLoop]
    simp only [hc, if_false, h2, h3, htake, hdrop]
    simp

theorem length_slashed_cons (s : List Char) (ss : List (List Char)) :
    (slashed (s :: ss)).length = 1 + s.length + (slashed ss).length := by
  simp [slashed]; omega

theorem cleanLoop_slashed (ss : List (List Char)) (hss : ∀ s ∈ ss, GoodSeg s) :
    ∀ (fuel : Nat) (out : List Char) (dotdot : Nat), (slashed ss).length ≤ fuel → out ≠ [] →
      cleanLoop false fuel (slashed ss) out dotdot = (slashed ss).reverse ++ out := by
  induction ss with
  | nil =>
    intro fuel out dotdot _ _
    cases fuel <;> simp [slashed, cleanLoop]
  | cons s ss ih =>
    intro fuel out dotdot hfuel hout
    have hs : GoodSeg s := hss s (List.mem_cons_self _ _)
    have hlen : 0 < s.length := List.length_pos.mpr hs.1
    rw [length_slashed_cons] at hfuel
    obtain ⟨f, rfl⟩ : ∃ f, fuel = f + 2 := ⟨fuel - 2, by omega⟩
    have hout' : out.length ≠ 0 := fun h => hout (List.length_eq_zero.mp h)
    have step1 : cleanLoop false (f + 2) (slashed (s :: ss)) out dotdot =
        cleanLoop false (f + 1) (s ++ slashed ss) out dotdot := by
      show cleanLoop false ((f + 1) + 1) ('/' :: (s ++ slashed ss)) out dotdot = _
      rw [cleanLoop]
      simp
    rw [step1, cleanLoop_seg f s ss out dotdot hs, if_pos hout',
      ih (fun t ht => hss t (List.mem_cons_of_mem _ ht)) f _ dotdot (by omega) (by simp)]
    simp [slashed]

theorem Clean_of_goodSegs (s : List Char) (ss : List (List Char)) (hs : GoodSeg s)
    (hss : ∀ t ∈ ss, GoodSeg t) :
    Clean (String.mk (s ++ slashed ss)) = String.mk (s ++ slashed ss) := by
  have hne : s ++ slashed ss ≠ [] := by
    intro h
    exact hs.1 (List.append_eq_nil.mp h).1
  have hhead : ¬ (s ++ slashed ss).head? = some '/' := by
    intro h
    cases s with
    | nil => exact hs.1 rfl
    | cons c s' =>
      simp only [List.cons_append, List.head?_cons, Option.some.injEq] at h
      exact hs.2.1 (h ▸ List.mem_cons_self _ _)
  have hlen : (s ++ slashed ss).length = (s.length - 1 + (slashed ss).length) + 1 := by
    have : 0 < s.length := List.length_pos.mpr hs.1
    rw [List.length_append]; omega
  have hloop : cleanLoop false (s ++ slashed ss).length (s ++ slashed ss) [] 0 =
      (slashed ss).reverse ++ s.reverse := by
    rw [hlen, cleanLoop_seg _ s ss [] 0 hs]
    simp only [List.length_nil, ne_eq, not_true_eq_false, if_false, List.append_nil]
    exact cleanLoop_slashed ss hss _ _ 0 (by omega) (by simpa using hs.1)
  have hout : (slashed ss).reverse ++ s.reverse ≠ [] := by
    intro h
    exact hs.1 (List.reverse_eq_nil_iff.mp (List.append_eq_nil.mp h).2)
  simp only [Clean, hne, if_false, hhead, decide_False, Bool.false_eq_true, hloop, hout]
  simp

theorem goodSeg_of_string (s : String)
    (hs : s ≠ "" ∧ '/' ∉ s.data ∧ s ≠ "." ∧ s ≠ "..") : GoodSeg s.data :=
  ⟨fun h => hs.1 (String.ext h), hs.2.1, fun h => hs.2.2.1 (String.ext h),
    fun h => hs.2.2.2 (String.ext h)⟩

theorem filepathJoin_TetragonPackageName (segs : List String) (hne : segs ≠ [])
    (hgood : ∀ s ∈ segs, s ≠ "" ∧ '/' ∉ s.data ∧ s ≠ "." ∧ s ≠ "..") :
    filepathJoin [TetragonPackageName, stringsJoin segs "/"] =
      TetragonPackageName ++ "/" ++ stringsJoin segs "/" := by
  cases segs with
  | nil => exact absurd rfl hne
  | cons s0 rest =>
    have hroot : TetragonPackageName.data =
        "github.com".data ++ slashed ["cilium".data, "tetragon".data] := by decide
    have hp : (stringsJoin (s0 :: rest) "/").data =
        s0.data ++ slashed (rest.map String.data) := by
      show List.intercalate ['/'] (s0.data :: rest.map String.data) = _
      exact intercalate_slash_cons _ _
    have hjoin : stringsJoin [TetragonPackageName, stringsJoin (s0 :: rest) "/"] "/" =
        String.mk ("github.com".data ++
          slashed (["cilium".data, "tetragon".data] ++ (s0.data :: rest.map String.data))) := by
      apply String.ext
      show List.intercalate ['/'] [TetragonPackageName.data, (stringsJoin (s0 :: rest) "/").data] = _
      rw [intercalate_slash_cons, hroot, hp, slashed_append]
      simp [slashed]
    have hrhs : TetragonPackageName ++ "/" ++ stringsJoin (s0 :: rest) "/" =
        String.mk ("github.com".data ++
          slashed (["cilium".data, "tetragon".data] ++ (s0.data :: rest.map String.data))) := by
      apply String.ext
      rw [String.data_append, String.data_append, hroot, hp, slashed_append]
      simp [slashed]
    have hdrop : [TetragonPackageName, stringsJoin (s0 :: rest) "/"].dropWhile (fun e => e == "") =
        [TetragonPackageName, stringsJoin (s0 :: rest) "/"] := by
      rw [List.dropWhile_cons_of_neg]
      decide
    have hsegs : ∀ t ∈ ["cilium".data, "tetragon".data] ++ (s0.data :: rest.map String.data),
        GoodSeg t := by
      intro t ht
      simp only [List.cons_append, List.nil_append, List.mem_cons, List.mem_map] at ht
      rcases ht with rfl | rfl | rfl | ⟨u, hu, rfl⟩
      · exact ⟨by decide, by decide, by decide, by decide⟩
      · exact ⟨by decide, by decide, by decide, by decide⟩
      · exact goodSeg_of_string s0 (hgood s0 (List.mem_cons_self _ _))
      · exact goodSeg_of_string u (hgood u (List.mem_cons_of_mem _ hu))
    unfold filepathJoin
    rw [hdrop]
    show Clean (stringsJoin [TetragonPackageName, stringsJoin (s0 :: rest) "/"] "/") = _
    rw [hjoin, hrhs]
    exact Clean_of_goodSegs _ _ ⟨by decide, by decide, by decide, by decide⟩ hsegs

/-! ## The event locator -/

/-- C1: when `GetEvents` finds the message `GetEventsResponse` and its oneof
`event`, it returns the messages of the file, in the order of the file,
whose declared name is the local name of some member of that oneof; a
message that no member names is not returned. -/
theorem GetEvents_eq_filter_in_file_order (file : protogen.File) (m : protogen.Message)
    (o : protogen.Oneof)
    (hm : file.Messages.find? (fun msg => msg.GoIdent.GoName == "GetEventsResponse") = some m)
    (ho : m.Oneofs.find? (fun oneof => oneof.Desc.Name == "event") = some o) :
    GetEvents file =
        Except.ok (file.Messages.filter
          (fun msg => decide (∃ f ∈ o.Fields,
            msg.Desc.Name = TrimPrefix f.GoIdent.GoName "GetEventsResponse_"))) ∧
      ∀ evs, GetEvents file = Except.ok evs → ∀ msg ∈ file.Messages,
        (∀ f ∈ o.Fields, msg.Desc.Name ≠ TrimPrefix f.GoIdent.GoName "GetEventsResponse_") →
          msg ∉ evs := by
  have key : GetEvents file =
      Except.ok (file.Messages.filter
        (fun msg => decide (∃ f ∈ o.Fields,
          msg.Desc.Name = TrimPrefix f.GoIdent.GoName "GetEventsResponse_"))) := by
    rw [GetEvents_found file m o hm ho]
    congr 1
    apply List.filter_congr
    intro msg _
    rw [Bool.eq_iff_iff, isMemberName_iff]
    simp only [decide_eq_true_eq, localName]
    constructor
    · rintro ⟨f, hf, h⟩; exact ⟨f, hf, h.symm⟩
    · rintro ⟨f, hf, h⟩; exact ⟨f, hf, h.symm⟩
  refine ⟨key, ?_⟩
  intro evs hevs msg _ hno hin
  rw [key] at hevs
  injection hevs with hevs
  subst hevs
  rw [List.mem_filter] at hin
  obtain ⟨f, hf, h⟩ := of_decide_eq_true hin.2
  exact hno f hf h

/-- C1 at the sample schema: the union lists `A`, `B`, the file declares
`B`, `A`, `C`, and the result is `[B, A]`. -/
theorem GetEvents_eq_filter_in_file_order_witness :
    GetEvents sampleFile = Except.ok [plainMessage "B", plainMessage "A"] ∧
      ∀ evs, GetEvents sampleFile = Except.ok evs → plainMessage "C" ∉ evs := by
  have h := GetEvents_eq_filter_in_file_order sampleFile (containerMessage "event" sampleMembers)
    { Desc := { Name := "event" }, Fields := sampleMembers }
    find?_GetEventsResponse_sampleFile find?_event_sampleFile
  refine ⟨h.1.trans (congrArg Except.ok (by decide)), ?_⟩
  intro evs hevs
  exact h.2 evs hevs (plainMessage "C") (by decide) (by decide)

/-- C2: `GetEvents` fails with "Unable to find GetEventsResponse message"
exactly when no top-level message of the file has the Go name
`GetEventsResponse`. -/
theorem GetEvents_container_not_found_iff (file : protogen.File) :
    GetEvents file = Except.error "Unable to find GetEventsResponse message" ↔
      ∀ msg ∈ file.Messages, msg.GoIdent.GoName ≠ "GetEventsResponse" := by
  constructor
  · intro h msg hmsg hname
    unfold GetEvents at h
    split at h
    · next hnone =>
      rw [List.find?_eq_none] at hnone
      exact hnone msg hmsg (by simp [hname])
    · split at h
      · injection h with h
        exact absurd h (by decide)
      · exact Except.noConfusion h
  · intro h
    have hnone : file.Messages.find? (fun msg => msg.GoIdent.GoName == "GetEventsResponse") = none := by
      rw [List.find?_eq_none]
      intro msg hmsg
      simpa using h msg hmsg
    simp [GetEvents, hnone, errNoGetEventsResponse]

/-- C3: when the first message whose Go name is `GetEventsResponse` has no
oneof named `event`, `GetEvents` fails with
"Unable to find GetEventsResponse.event", whatever else the file declares. -/
theorem GetEvents_union_not_found (file : protogen.File) (m : protogen.Message)
    (hm : file.Messages.find? (fun msg => msg.GoIdent.GoName == "GetEventsResponse") = some m)
    (ho : ∀ oneof ∈ m.Oneofs, oneof.Desc.Name ≠ "event") :
    GetEvents file = Except.error "Unable to find GetEventsResponse.event" := by
  have hnone : m.Oneofs.find? (fun oneof => oneof.Desc.Name == "event") = none := by
    rw [List.find?_eq_none]
    intro oneof hin
    simpa using ho oneof hin
  simp [GetEvents, hm, hnone, errNoEventOneof]

/-- C3 at a schema whose container has a oneof `payload` and a field, next
to two other messages. -/
theorem GetEvents_union_not_found_witness :
    (schemaFile [plainMessage "A", containerMessage "payload" sampleMembers,
        plainMessage "B"]).Messages.find?
        (fun msg => msg.GoIdent.GoName == "GetEventsResponse") =
        some (containerMessage "payload" sampleMembers) ∧
      (∀ oneof ∈ (containerMessage "payload" sampleMembers).Oneofs, oneof.Desc.Name ≠ "event") ∧
      GetEvents (schemaFile [plainMessage "A", containerMessage "payload" sampleMembers,
        plainMessage "B"]) = Except.error "Unable to find GetEventsResponse.event" :=
  ⟨by decide, by decide,
    GetEvents_union_not_found _ (containerMessage "payload" sampleMembers) (by decide) (by decide)⟩

/-- C4 (as stated) fails: the union of `repeatedFile` has three members, all
of which resolve to declared messages, and `GetEvents` returns two
descriptors. -/
theorem GetEvents_count_counterexample :
    repeatedFile.Messages.find? (fun msg => msg.GoIdent.GoName == "GetEventsResponse") =
        some (containerMessage "event" repeatedMembers) ∧
      (containerMessage "event" repeatedMembers).Oneofs.find?
        (fun oneof => oneof.Desc.Name == "event") =
        some { Desc := { Name := "event" }, Fields := repeatedMembers } ∧
      (∀ f ∈ repeatedMembers, ∃ msg ∈ repeatedFile.Messages, msg.Desc.Name = localName f) ∧
      repeatedMembers.length = 3 ∧
      GetEvents repeatedFile = Except.ok [plainMessage "A", plainMessage "B"] ∧
      ¬ ∃ evs, GetEvents repeatedFile = Except.ok evs ∧ evs.length = repeatedMembers.length := by
  have hres : GetEvents repeatedFile = Except.ok [plainMessage "A", plainMessage "B"] := by rfl
  refine ⟨by decide, by decide, by decide, by decide, hres, ?_⟩
  rintro ⟨evs, hevs, hlen⟩
  rw [hres] at hevs
  injection hevs with hevs
  subst hevs
  exact absurd hlen (by decide)

/-- C4 (amended): when the declared names of the messages of the file are
pairwise distinct and every member of the event union resolves to a declared
message, `GetEvents` returns as many descriptors as the union has distinct
local names, without duplicates; this is the number of members when no
local name is listed twice. -/
theorem GetEvents_count_distinct_names (file : protogen.File) (m : protogen.Message)
    (o : protogen.Oneof)
    (hm : file.Messages.find? (fun msg => msg.GoIdent.GoName == "GetEventsResponse") = some m)
    (ho : m.Oneofs.find? (fun oneof => oneof.Desc.Name == "event") = some o)
    (hnames : (file.Messages.map (fun msg => msg.Desc.Name)).Nodup)
    (hres : ∀ f ∈ o.Fields, ∃ msg ∈ file.Messages, msg.Desc.Name = localName f) :
    ∃ evs, GetEvents file = Except.ok evs ∧
      evs.length = (o.Fields.map localName).toFinset.card ∧
      evs.Nodup ∧
      ((o.Fields.map localName).Nodup → evs.length = o.Fields.length) := by
  obtain ⟨hlen, hnd⟩ := filter_isMemberName_count file.Messages o.Fields hnames hres
  refine ⟨_, GetEvents_found file m o hm ho, hlen, hnd, ?_⟩
  intro hdistinct
  rw [hlen, List.toFinset_card_of_nodup hdistinct, List.length_map]

/-- C4 (amended) at `repeatedFile`: three members, two distinct local names,
two descriptors. -/
theorem GetEvents_count_distinct_names_witness :
    (repeatedFile.Messages.map (fun msg => msg.Desc.Name)).Nodup ∧
      (∀ f ∈ repeatedMembers, ∃ msg ∈ repeatedFile.Messages, msg.Desc.Name = localName f) ∧
      ∃ evs, GetEvents repeatedFile = Except.ok evs ∧
        evs.length = (repeatedMembers.map localName).toFinset.card ∧
        evs.Nodup ∧
        ((repeatedMembers.map localName).Nodup → evs.length = repeatedMembers.length) :=
  ⟨by decide, by decide,
    GetEvents_count_distinct_names repeatedFile (containerMessage "event" repeatedMembers)
      { Desc := { Name := "event" }, Fields := repeatedMembers }
      (by decide) (by decide) (by decide) (by decide)⟩

/-- C5 (as stated) fails: the union of `sampleFile` lists `A`, `B` and
`GetEvents` returns `[B, A]`, the order of the file. -/
theorem GetEvents_union_order_counterexample :
    sampleMembers.map localName = ["A", "B"] ∧
      GetEvents sampleFile = Except.ok [plainMessage "B", plainMessage "A"] ∧
      ¬ ∃ evs, GetEvents sampleFile = Except.ok evs ∧
        evs.map (fun msg => msg.Desc.Name) = sampleMembers.map localName := by
  have hres : GetEvents sampleFile = Except.ok [plainMessage "B", plainMessage "A"] := by rfl
  refine ⟨by decide, hres, ?_⟩
  rintro ⟨evs, hevs, hnames⟩
  rw [hres] at hevs
  injection hevs with hevs
  subst hevs
  exact absurd hnames (by decide)

/-- C5 (amended): the list returned by `GetEvents` is an ordered sequence of
messages of the file in the declaration order of the file; it holds every
message of the file that a member of the event union names, and nothing
else. -/
theorem GetEvents_in_file_order (file : protogen.File) (m : protogen.Message)
    (o : protogen.Oneof)
    (hm : file.Messages.find? (fun msg => msg.GoIdent.GoName == "GetEventsResponse") = some m)
    (ho : m.Oneofs.find? (fun oneof => oneof.Desc.Name == "event") = some o) :
    ∃ evs, GetEvents file = Except.ok evs ∧
      evs.Sublist file.Messages ∧
      (∀ f ∈ o.Fields, ∀ msg ∈ file.Messages, msg.Desc.Name = localName f → msg ∈ evs) ∧
      (∀ msg ∈ evs, ∃ f ∈ o.Fields, localName f = msg.Desc.Name) := by
  refine ⟨_, GetEvents_found file m o hm ho, List.filter_sublist _, ?_, ?_⟩
  · intro f hf msg hmsg hname
    rw [List.mem_filter, isMemberName_iff]
    exact ⟨hmsg, f, hf, hname.symm⟩
  · intro msg hmsg
    rw [List.mem_filter, isMemberName_iff] at hmsg
    exact hmsg.2

/-- C5 (amended) at the sample schema. -/
theorem GetEvents_in_file_order_witness :
    ∃ evs, GetEvents sampleFile = Except.ok evs ∧
      evs.Sublist sampleFile.Messages ∧
      (∀ f ∈ sampleMembers, ∀ msg ∈ sampleFile.Messages, msg.Desc.Name = localName f → msg ∈ evs) ∧
      (∀ msg ∈ evs, ∃ f ∈ sampleMembers, localName f = msg.Desc.Name) :=
  GetEvents_in_file_order sampleFile (containerMessage "event" sampleMembers)
    { Desc := { Name := "event" }, Fields := sampleMembers }
    find?_GetEventsResponse_sampleFile find?_event_sampleFile

/-- C6: once the message `GetEventsResponse` and its oneof `event` are found,
`GetEvents` returns a list and no error; when no member of the union names
a message of the file (in particular when the union is empty) the list is
empty; and putting into the union, at any place, a member whose local name
is the name of no message of the file leaves the returned list as it was. -/
theorem GetEvents_unmatched_member_dropped (file : protogen.File) (m : protogen.Message)
    (o : protogen.Oneof)
    (hm : file.Messages.find? (fun msg => msg.GoIdent.GoName == "GetEventsResponse") = some m)
    (ho : m.Oneofs.find? (fun oneof => oneof.Desc.Name == "event") = some o) :
    (∃ evs, GetEvents file = Except.ok evs) ∧
      ((∀ f ∈ o.Fields, ∀ msg ∈ file.Messages, msg.Desc.Name ≠ localName f) →
        GetEvents file = Except.ok []) ∧
      (∀ (xs ys : List protogen.Field) (f : protogen.Field), o.Fields = xs ++ ys →
        (∀ msg ∈ file.Messages, msg.Desc.Name ≠ localName f) →
        ∃ evs evs', GetEvents file = Except.ok evs ∧
          GetEvents (withEventFields file (xs ++ f :: ys)) = Except.ok evs' ∧
          SameEvents m (withEventMembers m (xs ++ f :: ys)) evs evs') := by
  refine ⟨⟨_, GetEvents_found file m o hm ho⟩, ?_, ?_⟩
  · intro hno
    rw [GetEvents_found file m o hm ho]
    congr 1
    rw [List.filter_eq_nil_iff]
    intro msg hmsg hmember
    obtain ⟨f, hf, hname⟩ := (isMemberName_iff _ _).mp hmember
    exact hno f hf msg hmsg hname.symm
  · intro xs ys f hfields hno
    apply GetEvents_sameEvents file m o (xs ++ f :: ys) hm ho
    intro msg hmsg
    rw [Bool.eq_iff_iff, isMemberName_iff, isMemberName_iff, hfields]
    constructor
    · rintro ⟨g, hg, hname⟩
      rw [List.mem_append, List.mem_cons] at hg
      rcases hg with hg | rfl | hg
      · exact ⟨g, List.mem_append_left _ hg, hname⟩
      · exact absurd hname.symm (hno msg hmsg)
      · exact ⟨g, List.mem_append_right _ hg, hname⟩
    · rintro ⟨g, hg, hname⟩
      rw [List.mem_append] at hg
      rcases hg with hg | hg
      · exact ⟨g, List.mem_append_left _ hg, hname⟩
      · exact ⟨g, List.mem_append_right _ (List.mem_cons_of_mem _ hg), hname⟩

/-- C6 at the sample schema, with a member `Z` put between `A` and `B`. -/
theorem GetEvents_unmatched_member_dropped_witness :
    (∃ evs, GetEvents sampleFile = Except.ok evs) ∧
      ∃ evs evs', GetEvents sampleFile = Except.ok evs ∧
        GetEvents (withEventFields sampleFile
          ([unionMember "GetEventsResponse_A"] ++ unionMember "GetEventsResponse_Z" ::
            [unionMember "GetEventsResponse_B"])) = Except.ok evs' ∧
        SameEvents (containerMessage "event" sampleMembers)
          (withEventMembers (containerMessage "event" sampleMembers)
            ([unionMember "GetEventsResponse_A"] ++ unionMember "GetEventsResponse_Z" ::
              [unionMember "GetEventsResponse_B"])) evs evs' :=
  ⟨(GetEvents_unmatched_member_dropped sampleFile (containerMessage "event" sampleMembers)
      { Desc := { Name := "event" }, Fields := sampleMembers }
      find?_GetEventsResponse_sampleFile find?_event_sampleFile).1,
    (GetEvents_unmatched_member_dropped sampleFile (containerMessage "event" sampleMembers)
      { Desc := { Name := "event" }, Fields := sampleMembers }
      find?_GetEventsResponse_sampleFile find?_event_sampleFile).2.2
      [unionMember "GetEventsResponse_A"] [unionMember "GetEventsResponse_B"]
      (unionMember "GetEventsResponse_Z") (by decide) (by decide)⟩

/-- C7: the list returned by `GetEvents` depends on the event union only
through the set of local names of its members: any other list of members
with the same set of local names gives the same list, in particular a
permutation of the members, and the members with one of them repeated. -/
theorem GetEvents_depends_on_name_set (file : protogen.File) (m : protogen.Message)
    (o : protogen.Oneof)
    (hm : file.Messages.find? (fun msg => msg.GoIdent.GoName == "GetEventsResponse") = some m)
    (ho : m.Oneofs.find? (fun oneof => oneof.Desc.Name == "event") = some o) :
    (∀ fields : List protogen.Field,
        (∀ name, name ∈ fields.map localName ↔ name ∈ o.Fields.map localName) →
        ∃ evs evs', GetEvents file = Except.ok evs ∧
          GetEvents (withEventFields file fields) = Except.ok evs' ∧
          SameEvents m (withEventMembers m fields) evs evs') ∧
      (∀ fields : List protogen.Field, fields.Perm o.Fields →
        ∃ evs evs', GetEvents file = Except.ok evs ∧
          GetEvents (withEventFields file fields) = Except.ok evs' ∧
          SameEvents m (withEventMembers m fields) evs evs') ∧
      (∀ (xs ys : List protogen.Field) (g : protogen.Field), o.Fields = xs ++ ys →
        (∃ f ∈ o.Fields, localName f = localName g) →
        ∃ evs evs', GetEvents file = Except.ok evs ∧
          GetEvents (withEventFields file (xs ++ g :: ys)) = Except.ok evs' ∧
          SameEvents m (withEventMembers m (xs ++ g :: ys)) evs evs') := by
  have general : ∀ fields : List protogen.Field,
      (∀ name, name ∈ fields.map localName ↔ name ∈ o.Fields.map localName) →
      ∃ evs evs', GetEvents file = Except.ok evs ∧
        GetEvents (withEventFields file fields) = Except.ok evs' ∧
        SameEvents m (withEventMembers m fields) evs evs' := by
    intro fields hset
    apply GetEvents_sameEvents file m o fields hm ho
    intro msg _
    rw [Bool.eq_iff_iff, isMemberName_iff, isMemberName_iff]
    simpa only [List.mem_map] using hset msg.Desc.Name
  refine ⟨general, ?_, ?_⟩
  · intro fields hperm
    apply general
    intro name
    exact (hperm.map localName).mem_iff
  · rintro xs ys g hfields ⟨f, hf, hname⟩
    apply general
    intro name
    rw [hfields] at hf ⊢
    simp only [List.map_append, List.map_cons, List.mem_append, List.mem_cons, List.mem_map]
    constructor
    · rintro (h | rfl | h)
      · exact Or.inl h
      · rw [List.mem_append] at hf
        rcases hf with hf | hf
        · exact Or.inl ⟨f, hf, hname⟩
        · exact Or.inr ⟨f, hf, hname⟩
      · exact Or.inr h
    · rintro (h | h)
      · exact Or.inl h
      · exact Or.inr (Or.inr h)

/-- C7 at the sample schema, with the union `A`, `B` replaced by `B`, `A`, `B`. -/
theorem GetEvents_depends_on_name_set_witness :
    ∃ evs evs', GetEvents sampleFile = Except.ok evs ∧
      GetEvents (withEventFields sampleFile
        [unionMember "GetEventsResponse_B", unionMember "GetEventsResponse_A",
          unionMember "GetEventsResponse_B"]) = Except.ok evs' ∧
      SameEvents (containerMessage "event" sampleMembers)
        (withEventMembers (containerMessage "event" sampleMembers)
          [unionMember "GetEventsResponse_B", unionMember "GetEventsResponse_A",
            unionMember "GetEventsResponse_B"]) evs evs' :=
  (GetEvents_depends_on_name_set sampleFile (containerMessage "event" sampleMembers)
    { Desc := { Name := "event" }, Fields := sampleMembers }
    find?_GetEventsResponse_sampleFile find?_event_sampleFile).1
    [unionMember "GetEventsResponse_B", unionMember "GetEventsResponse_A",
      unionMember "GetEventsResponse_B"]
    (fun name => by
      have h1 : List.map localName [unionMember "GetEventsResponse_B",
          unionMember "GetEventsResponse_A", unionMember "GetEventsResponse_B"] =
          ["B", "A", "B"] := by decide
      have h2 : List.map localName sampleMembers = ["A", "B"] := by decide
      show name ∈ List.map localName _ ↔ name ∈ List.map localName sampleMembers
      rw [h1, h2]
      simp only [List.mem_cons, List.mem_singleton, List.not_mem_nil, or_false]
      tauto)

/-! ## The capability classifier -/

/-- C8: `EventFieldCheck msg fieldName` is true exactly when `msg` declares a
field whose name is `fieldName`, letter case included: a message whose only
field is `Process` gives false for `process`, and a message without fields
gives false for every name. -/
theorem EventFieldCheck_iff (msg : protogen.Message) (fieldName : String) :
    (EventFieldCheck msg fieldName = true ↔ ∃ fd ∈ msg.Desc.Fields, fd.Name = fieldName) ∧
      (msg.Desc.Fields = [{ Name := "Process" }] → EventFieldCheck msg "process" = false) ∧
      (msg.Desc.Fields = [] → EventFieldCheck msg fieldName = false) := by
  have key : ∀ name : String,
      EventFieldCheck msg name = true ↔ ∃ fd ∈ msg.Desc.Fields, fd.Name = name := by
    intro name
    simp [EventFieldCheck, ByName]
  refine ⟨key fieldName, ?_, ?_⟩
  · intro hfields
    rw [Bool.eq_false_iff, Ne, key, hfields]
    decide
  · intro hfields
    rw [Bool.eq_false_iff, Ne, key, hfields]
    simp

/-- C8 at a message whose only field is `Process`, and at one without fields. -/
theorem EventFieldCheck_iff_witness :
    EventFieldCheck (messageWithFields "ProcessExec" ["Process"]) "Process" = true ∧
      EventFieldCheck (messageWithFields "ProcessExec" ["Process"]) "process" = false ∧
      EventFieldCheck (messageWithFields "Empty" []) "process" = false :=
  ⟨(EventFieldCheck_iff (messageWithFields "ProcessExec" ["Process"]) "Process").1.mpr
      ⟨{ Name := "Process" }, by decide, rfl⟩,
    (EventFieldCheck_iff (messageWithFields "ProcessExec" ["Process"]) "process").2.1 (by decide),
    (EventFieldCheck_iff (messageWithFields "Empty" []) "process").2.2 (by decide)⟩

/-- C9: `IsProcessEvent` is `EventFieldCheck` at the name `process`,
`IsParentEvent` is `EventFieldCheck` at the name `parent`, and each of the
four pairs of answers is given by some message. -/
theorem IsProcessEvent_IsParentEvent (msg : protogen.Message) :
    IsProcessEvent msg = EventFieldCheck msg "process" ∧
      IsParentEvent msg = EventFieldCheck msg "parent" ∧
      ∀ a b : Bool, ∃ msg' : protogen.Message, IsProcessEvent msg' = a ∧ IsParentEvent msg' = b := by
  refine ⟨rfl, rfl, ?_⟩
  intro a b
  cases a <;> cases b
  · exact ⟨messageWithFields "Test" [], by decide, by decide⟩
  · exact ⟨messageWithFields "ProcessExit" ["parent"], by decide, by decide⟩
  · exact ⟨messageWithFields "ProcessLoader" ["process"], by decide, by decide⟩
  · exact ⟨messageWithFields "ProcessExec" ["process", "parent"], by decide, by decide⟩

/-! ## The reference builder -/

/-- C10 (as stated) fails: for the import path `.` the path handed to
`GoIdent` is the cleaned `github.com/cilium/tetragon`, not the concatenation
`github.com/cilium/tetragon/.`, and the two qualified references differ. -/
theorem TetragonIdent_concat_counterexample :
    (TetragonIdent freshFile "." "Event").1 = "tetragon.Event" ∧
      (GoIdent freshFile (TetragonPackageName ++ "/" ++ ".") "Event").1 = "__.Event" ∧
      TetragonIdent freshFile "." "Event" ≠
        GoIdent freshFile (TetragonPackageName ++ "/" ++ ".") "Event" := by
  refine ⟨by decide, by decide, ?_⟩
  intro h
  have h1 : (TetragonIdent freshFile "." "Event").1 =
      (GoIdent freshFile (TetragonPackageName ++ "/" ++ ".") "Event").1 := by rw [h]
  exact absurd h1 (by decide)

/-- C10 (amended): `TetragonIdent g p n` is `GoIdent g (filepath.Join(root, p)) n`
for the fixed root `github.com/cilium/tetragon`; the joined path is cleaned,
and it is the plain concatenation `root + "/" + p` whenever `p` is made of
one or more path elements separated by single slashes, none of them empty,
`.` or `..`. -/
theorem TetragonIdent_eq_GoIdent_join (g : protogen.GeneratedFile) (importPath name : String) :
    TetragonIdent g importPath name =
        GoIdent g (filepathJoin ["github.com/cilium/tetragon", importPath]) name ∧
      (∀ segs : List String, segs ≠ [] →
        (∀ s ∈ segs, s ≠ "" ∧ '/' ∉ s.data ∧ s ≠ "." ∧ s ≠ "..") →
        importPath = stringsJoin segs "/" →
        TetragonIdent g importPath name =
          GoIdent g ("github.com/cilium/tetragon" ++ "/" ++ importPath) name) := by
  refine ⟨rfl, ?_⟩
  intro segs hne hgood hpath
  subst hpath
  show GoIdent g (filepathJoin [TetragonPackageName, stringsJoin segs "/"]) name = _
  rw [filepathJoin_TetragonPackageName segs hne hgood]
  rfl

/-- C10 (amended) at the import path `api/v1/tetragon`. -/
theorem TetragonIdent_eq_GoIdent_join_witness :
    "api/v1/tetragon" = stringsJoin ["api", "v1", "tetragon"] "/" ∧
      TetragonIdent freshFile "api/v1/tetragon" "Event" =
        GoIdent freshFile ("github.com/cilium/tetragon" ++ "/" ++ "api/v1/tetragon") "Event" :=
  ⟨by decide,
    (TetragonIdent_eq_GoIdent_join freshFile "api/v1/tetragon" "Event").2
      ["api", "v1", "tetragon"] (by decide) (by decide) (by decide)⟩

/-- C11: `TetragonApiIdent g n` is `GoIdent` at the fixed import path
`github.com/cilium/tetragon/api/v1/tetragon`, the generated-API path
`api/v1/tetragon` under the root package path. -/
theorem TetragonApiIdent_eq_GoIdent (g : protogen.GeneratedFile) (name : String) :
    TetragonApiIdent g name = GoIdent g "github.com/cilium/tetragon/api/v1/tetragon" name ∧
      TetragonApiIdent g name = TetragonIdent g "api/v1/tetragon" name ∧
      "github.com/cilium/tetragon/api/v1/tetragon" =
        TetragonPackageName ++ "/" ++ TetragonApiPackageName := by
  have hjoin : filepathJoin [TetragonPackageName, TetragonApiPackageName] =
      "github.com/cilium/tetragon/api/v1/tetragon" := by decide
  refine ⟨?_, rfl, by decide⟩
  show GoIdent g (filepathJoin [TetragonPackageName, TetragonApiPackageName]) name = _
  rw [hjoin]

theorem digitVal_digitChar (d : Nat) (hd : d < 10) : digitVal (Nat.digitChar d) = d := by
  interval_cases d <;> rfl

theorem toDigitsCore_append (fuel n : Nat) (ds : List Char) :
    Nat.toDigitsCore 10 fuel n ds = Nat.toDigitsCore 10 fuel n [] ++ ds := by
  induction fuel generalizing n ds with
  | zero => simp [Nat.toDigitsCore]
  | succ fuel ih =>
    simp only [Nat.toDigitsCore]
    split
    · simp
    · rw [ih (n / 10) (Nat.digitChar (n % 10) :: ds), ih (n / 10) [Nat.digitChar (n % 10)]]
      simp

theorem decodeDigits_toDigitsCore (fuel n : Nat) (h : n < fuel) :
    decodeDigits (Nat.toDigitsCore 10 fuel n []) = n := by
  induction fuel generalizing n with
  | zero => omega
  | succ fuel ih =>
    simp only [Nat.toDigitsCore]
    split
    · next h0 =>
      simp only [decodeDigits, List.foldl_cons, List.foldl_nil, Nat.mul_zero, Nat.zero_add]
      rw [digitVal_digitChar _ (Nat.mod_lt _ (by decide))]
      omega
    · next h0 =>
      rw [toDigitsCore_append]
      have hlt : n / 10 < fuel := by omega
      have := ih (n / 10) hlt
      simp only [decodeDigits, List.foldl_append, List.foldl_cons, List.foldl_nil] at this ⊢
      rw [this, digitVal_digitChar _ (Nat.mod_lt _ (by decide))]
      omega

theorem decodeDigits_toString (n : Nat) : decodeDigits (toString n).data = n :=
  decodeDigits_toDigitsCore (n + 1) n (Nat.lt_succ_self n)

theorem toString_nat_injective (a b : Nat) (h : toString a = toString b) : a = b := by
  rw [← decodeDigits_toString a, ← decodeDigits_toString b, h]

theorem uniquePackageName_tested (used : List String) (orig : String) (fuel i : Nat)
    (name : String) (h : uniquePackageName used orig fuel i name ∈ used) :
    name ∈ used ∧ ∀ k < fuel, orig ++ toString (i + k) ∈ used := by
  induction fuel generalizing i name with
  | zero =>
    simp only [uniquePackageName] at h
    exact ⟨h, fun k hk => absurd hk (Nat.not_lt_zero k)⟩
  | succ fuel ih =>
    simp only [uniquePackageName] at h
    by_cases hname : setHas used name = true
    · rw [if_pos hname] at h
      obtain ⟨h1, h2⟩ := ih (i + 1) (orig ++ toString i) h
      refine ⟨by simpa [setHas] using hname, ?_⟩
      intro k hk
      cases k with
      | zero => simpa using h1
      | succ k =>
        have := h2 k (by omega)
        rwa [show i + 1 + k = i + (k + 1) by omega] at this
    · rw [if_neg hname] at h
      exact absurd (by simpa [setHas] using h) hname

/-- The bound on the rounds of the loop of `QualifiedGoIdent` is never what
stops it: the package name it returns is not taken. -/
theorem uniquePackageName_not_used (used : List String) (orig : String) :
    uniquePackageName used orig (used.length + 1) 1 orig ∉ used := by
  intro h
  obtain ⟨_, hall⟩ := uniquePackageName_tested used orig (used.length + 1) 1 orig h
  have hnodup : ((List.range (used.length + 1)).map (fun k => orig ++ toString (1 + k))).Nodup := by
    apply List.Nodup.map _ (List.nodup_range _)
    intro a b hab
    have hdata : (toString (1 + a)).data = (toString (1 + b)).data := by
      have := congrArg String.data hab
      simpa [String.data_append] using this
    have := toString_nat_injective _ _ (String.ext hdata)
    omega
  have hsub : (List.range (used.length + 1)).map (fun k => orig ++ toString (1 + k)) ⊆ used := by
    intro x hx
    rw [List.mem_map] at hx
    obtain ⟨k, hk, rfl⟩ := hx
    exact hall k (List.mem_range.mp hk)
  have hlen := (hnodup.subperm hsub).length_le
  simp only [List.length_map, List.length_range] at hlen
  omega

theorem QualifiedGoIdent_text_congr (g g' : protogen.GeneratedFile) (ident : protogen.GoIdent)
    (h1 : g'.goImportPath = g.goImportPath) (h2 : g'.packageNames = g.packageNames)
    (h3 : g'.usedPackageNames = g.usedPackageNames) :
    (QualifiedGoIdent g' ident).1 = (QualifiedGoIdent g ident).1 := by
  unfold QualifiedGoIdent
  rw [h1, h2, h3]
  split
  · rfl
  · split <;> rfl

theorem QualifiedGoIdent_again (g : protogen.GeneratedFile) (ident : protogen.GoIdent) :
    QualifiedGoIdent (QualifiedGoIdent g ident).2 ident = QualifiedGoIdent g ident := by
  by_cases hsame : ident.GoImportPath = g.goImportPath
  · simp [QualifiedGoIdent, hsame]
  · cases hlook : g.packageNames.lookup ident.GoImportPath with
    | some packageName => simp [QualifiedGoIdent, hsame, hlook]
    | none => simp [QualifiedGoIdent, hsame, hlook, List.lookup]

/-- C12: `GoIdent` is deterministic and idempotent: on two generated files
that agree on their import path and on the packages recorded so far it
returns the same text, and a second call with the same arguments on the
same generated file returns the text of the first call and changes nothing
more. -/
theorem GoIdent_deterministic_idempotent (g g' : protogen.GeneratedFile)
    (importPath name : String) :
    (g'.goImportPath = g.goImportPath → g'.packageNames = g.packageNames →
        g'.usedPackageNames = g.usedPackageNames →
        (GoIdent g' importPath name).1 = (GoIdent g importPath name).1) ∧
      (GoIdent (GoIdent g importPath name).2 importPath name).1 = (GoIdent g importPath name).1 ∧
      (GoIdent (GoIdent g importPath name).2 importPath name).2 = (GoIdent g importPath name).2 := by
  refine ⟨?_, ?_, ?_⟩
  · intro h1 h2 h3
    exact QualifiedGoIdent_text_congr g g' _ h1 h2 h3
  · exact congrArg Prod.fst (QualifiedGoIdent_again g _)
  · exact congrArg Prod.snd (QualifiedGoIdent_again g _)

/-- C12 at two independent fresh files and the logger package: both give
`logger.GetLogger`, and so does a second call. -/
theorem GoIdent_deterministic_idempotent_witness :
    (GoIdent otherFreshFile "github.com/cilium/tetragon/pkg/logger" "GetLogger").1 =
        (GoIdent freshFile "github.com/cilium/tetragon/pkg/logger" "GetLogger").1 ∧
      (GoIdent freshFile "github.com/cilium/tetragon/pkg/logger" "GetLogger").1 =
        "logger.GetLogger" ∧
      (GoIdent (GoIdent freshFile "github.com/cilium/tetragon/pkg/logger" "GetLogger").2
        "github.com/cilium/tetragon/pkg/logger" "GetLogger").1 =
        (GoIdent freshFile "github.com/cilium/tetragon/pkg/logger" "GetLogger").1 :=
  ⟨(GoIdent_deterministic_idempotent freshFile otherFreshFile
      "github.com/cilium/tetragon/pkg/logger" "GetLogger").1 (by decide) (by decide) (by decide),
    by decide,
    (GoIdent_deterministic_idempotent freshFile otherFreshFile
      "github.com/cilium/tetragon/pkg/logger" "GetLogger").2.1⟩

/-! ## File preamble and `FmtErrorf` -/

theorem splitOnNewline_line (a r : List Char) (ha : '\n' ∉ a) :
    splitOnNewline (a ++ '\n' :: r) = a :: splitOnNewline r := by
  induction a with
  | nil => simp [splitOnNewline]
  | cons c a ih =>
    have hc : c ≠ '\n' := fun h => ha (h ▸ List.mem_cons_self _ _)
    have ha' : '\n' ∉ a := fun h => ha (List.mem_cons_of_mem _ h)
    simp [splitOnNewline, hc, ih ha']

theorem NewGeneratedFile_buf_eq (gen : protogen.Plugin) (file : protogen.File) (pkg : String) :
    (NewGeneratedFile gen file pkg).buf =
      "// SPDX-License-Identifier: Apache-2.0\n// Copyright Authors of Tetragon\n\n" ++
        "// Code generated by protoc-gen-go-tetragon. DO NOT EDIT\n\npackage " ++ pkg ++ "\n\n" := by
  apply String.ext
  simp [NewGeneratedFile, protogen.GeneratedFile.P, protogen.Plugin.NewGeneratedFile,
    TetragonCopyrightHeader, String.data_append]

/-- C14: the text that `NewGeneratedFile` writes to the new buffer is, in
this order, the two lines of the license header, an empty line, the marker
comment, an empty line, `package <pkg>` and an empty line; its first two
lines that are not blank are the license header. -/
theorem NewGeneratedFile_preamble (gen : protogen.Plugin) (file : protogen.File) (pkg : String) :
    (NewGeneratedFile gen file pkg).buf =
        linesText ["// SPDX-License-Identifier: Apache-2.0", "// Copyright Authors of Tetragon",
          "", "// Code generated by protoc-gen-go-tetragon. DO NOT EDIT", "",
          "package " ++ pkg, ""] ∧
      (NewGeneratedFile gen file pkg).buf =
        "// SPDX-License-Identifier: Apache-2.0\n// Copyright Authors of Tetragon\n\n" ++
          "// Code generated by protoc-gen-go-tetragon. DO NOT EDIT\n\npackage " ++ pkg ++ "\n\n" ∧
      (nonBlankLines (NewGeneratedFile gen file pkg).buf).take 2 =
        ["// SPDX-License-Identifier: Apache-2.0", "// Copyright Authors of Tetragon"] := by
  refine ⟨?_, NewGeneratedFile_buf_eq gen file pkg, ?_⟩
  · rw [NewGeneratedFile_buf_eq]
    apply String.ext
    simp [linesText, String.data_append]
  · have hdata : (NewGeneratedFile gen file pkg).buf.data =
        "// SPDX-License-Identifier: Apache-2.0".data ++ '\n' ::
          ("// Copyright Authors of Tetragon".data ++ '\n' ::
            ("\n// Code generated by protoc-gen-go-tetragon. DO NOT EDIT\n\npackage ".data ++
              pkg.data ++ "\n\n".data)) := by
      rw [NewGeneratedFile_buf_eq]
      simp [String.data_append]
    simp only [nonBlankLines, textLines, hdata]
    rw [splitOnNewline_line _ _ (by decide), splitOnNewline_line _ _ (by decide)]
    rfl

/-- C15: `FmtErrorf g f args` is the qualified identifier of `fmt.Errorf`
followed, in parentheses, by `f` between double quotes (as it is, nothing is
escaped) and then the elements of `args` in order, all separated by `, `;
without `args` it is `<ident>("<f>")`. -/
theorem FmtErrorf_text (g : protogen.GeneratedFile) (f : String) (args : List String) :
    (FmtErrorf g f args).1 =
        (GoIdent g "fmt" "Errorf").1 ++ "(" ++ stringsJoin (("\"" ++ f ++ "\"") :: args) ", " ++
          ")" ∧
      (FmtErrorf g f []).1 = (GoIdent g "fmt" "Errorf").1 ++ "(\"" ++ f ++ "\")" ∧
      (FmtErrorf g f args).2 = (GoIdent g "fmt" "Errorf").2 ∧
      (FmtErrorf freshFile "bad \"%s\"" ["name", "err"]).1 =
        "fmt.Errorf(\"bad \"%s\"\", name, err)" := by
  refine ⟨?_, ?_, rfl, by decide⟩
  · apply String.ext
    simp [FmtErrorf, Sprintf, sprintfLoop, stringsJoin, String.data_append]
  · apply String.ext
    simp [FmtErrorf, Sprintf, sprintfLoop, stringsJoin, String.data_append, List.intercalate]

/-! ## Auxiliary facts about `Clean`, `Base` and `TrimSuffix` for the file name -/

theorem takeWhile_seg_tail (s t : List Char) (hs : '/' ∉ s)
    (ht : t = [] ∨ ∃ u, t = '/' :: u) :
    (s ++ t).takeWhile (fun x => x != '/') = s ∧
      (s ++ t).dropWhile (fun x => x != '/') = t := by
  induction s with
  | nil =>
    rcases ht with rfl | ⟨u, rfl⟩
    · simp
    · simp
  | cons c s ih =>
    have hc : c ≠ '/' := fun h => hs (h ▸ List.mem_cons_self _ _)
    have hs' : '/' ∉ s := fun h => hs (List.mem_cons_of_mem _ h)
    obtain ⟨h1, h2⟩ := ih hs'
    simp [List.takeWhile_cons, List.dropWhile_cons, hc, h1, h2]

theorem cleanLoop_nil (rooted : Bool) (fuel : Nat) (out : List Char) (dotdot : Nat) :
    cleanLoop rooted fuel [] out dotdot = out := by
  cases fuel <;> simp [cleanLoop]

theorem cleanLoop_slash (rooted : Bool) (fuel : Nat) (t out : List Char) (dotdot : Nat) :
    cleanLoop rooted (fuel + 1) ('/' :: t) out dotdot = cleanLoop rooted fuel t out dotdot := by
  rw [cleanLoop]
  simp

theorem cleanLoop_seg_tail (fuel : Nat) (s t out : List Char) (dotdot : Nat) (hs : GoodSeg s)
    (ht : t = [] ∨ ∃ u, t = '/' :: u) :
    cleanLoop false (fuel + 1) (s ++ t) out dotdot =
      cleanLoop false fuel t (s.reverse ++ (if out.length ≠ 0 then '/' :: out else out)) dotdot := by
  obtain ⟨hne, hslash, hdot, hdotdot⟩ := hs
  obtain ⟨htake, hdrop⟩ := takeWhile_seg_tail s t hslash ht
  cases s with
  | nil => exact absurd rfl hne
  | cons c s' =>
    have hc : c ≠ '/' := fun h => hslash (h ▸ List.mem_cons_self _ _)
    have hs' : '/' ∉ s' := fun h => hslash (List.mem_cons_of_mem _ h)
    have h2 : ¬ (c = '.' ∧ (s' ++ t = [] ∨ (s' ++ t).head? = some '/')) := by
      rintro ⟨rfl, h⟩
      cases s' with
      | nil => exact hdot rfl
      | cons d s'' =>
        rcases h with h | h
        · simp at h
        · simp only [List.cons_append, List.head?_cons, Option.some.injEq] at h
          exact hs' (h ▸ List.mem_cons_self _ _)
    have h3 : ¬ (c = '.' ∧ (s' ++ t).head? = some '.' ∧
        ((s' ++ t).tail = [] ∨ (s' ++ t).tail.head? = some '/')) := by
      rintro ⟨rfl, hhead, h⟩
      cases s' with
      | nil =>
        rcases ht with rfl | ⟨u, rfl⟩
        · simp at hhead
        · simp at hhead
      | cons d s'' =>
        simp only [List.cons_append, List.head?_cons, Option.some.injEq] at hhead
        subst hhead
        cases s'' with
        | nil => exact hdotdot rfl
        | cons e s3 =>
          rcases h with h | h
          · simp at h
          · simp only [List.cons_append, List.tail_cons, List.head?_cons, Option.some.injEq] at h
            exact hs' (List.mem_cons_of_mem _ (h ▸ List.mem_cons_self _ _))
    rw [List.cons_append] at htake hdrop ⊢
    rw [cleanLoop]
    simp only [hc, if_false, h2, h3, htake, hdrop]
    simp

theorem slashed_append_tail (ss : List (List Char)) (t : List Char)
    (ht : t = [] ∨ ∃ u, t = '/' :: u) :
    slashed ss ++ t = [] ∨ ∃ u, slashed ss ++ t = '/' :: u := by
  cases ss with
  | nil => simpa [slashed] using ht
  | cons s ss => exact Or.inr ⟨_, rfl⟩

theorem cleanLoop_slashed_tail (ss : List (List Char)) (hss : ∀ s ∈ ss, GoodSeg s)
    (t : List Char) (ht : t = [] ∨ ∃ u, t = '/' :: u) :
    ∀ (fuel : Nat) (out : List Char) (dotdot : Nat), (slashed ss ++ t).length ≤ fuel → out ≠ [] →
      ∃ fuel', t.length ≤ fuel' ∧
        cleanLoop false fuel (slashed ss ++ t) out dotdot =
          cleanLoop false fuel' t ((slashed ss).reverse ++ out) dotdot := by
  induction ss with
  | nil =>
    intro fuel out dotdot hfuel _
    exact ⟨fuel, by simpa [slashed] using hfuel, by simp [slashed]⟩
  | cons s ss ih =>
    intro fuel out dotdot hfuel hout
    have hs : GoodSeg s := hss s (List.mem_cons_self _ _)
    have hlen : 0 < s.length := List.length_pos.mpr hs.1
    have hfuel' : 1 + s.length + (slashed ss ++ t).length ≤ fuel := by
      simp only [slashed, List.cons_append, List.append_assoc, List.length_cons,
        List.length_append] at hfuel ⊢
      omega
    obtain ⟨f, rfl⟩ : ∃ f, fuel = f + 2 := ⟨fuel - 2, by omega⟩
    have hout' : out.length ≠ 0 := fun h => hout (List.length_eq_zero.mp h)
    have step1 : cleanLoop false (f + 2) (slashed (s :: ss) ++ t) out dotdot =
        cleanLoop false (f + 1) (s ++ (slashed ss ++ t)) out dotdot := by
      show cleanLoop false ((f + 1) + 1) ('/' :: (s ++ slashed ss) ++ t) out dotdot = _
      rw [List.cons_append, List.append_assoc, cleanLoop_slash]
    obtain ⟨fuel', hle, heq⟩ := ih (fun u hu => hss u (List.mem_cons_of_mem _ hu)) f
      (s.reverse ++ '/' :: out) dotdot (by omega) (by simp)
    refine ⟨fuel', hle, ?_⟩
    rw [step1, cleanLoop_seg_tail f s _ out dotdot hs (slashed_append_tail ss t ht), if_pos hout',
      heq]
    simp [slashed]

theorem Clean_of_goodSegs_gap (s : List Char) (ss ts : List (List Char)) (hs : GoodSeg s)
    (hss : ∀ t ∈ ss, GoodSeg t) (hts : ∀ t ∈ ts, GoodSeg t) :
    Clean (String.mk (s ++ slashed ss ++ '/' :: slashed ts)) =
      String.mk (s ++ slashed (ss ++ ts)) := by
  have hne : s ++ slashed ss ++ '/' :: slashed ts ≠ [] := by simp
  have hhead : ¬ (s ++ slashed ss ++ '/' :: slashed ts).head? = some '/' := by
    intro h
    cases s with
    | nil => exact hs.1 rfl
    | cons c s' =>
      simp only [List.cons_append, List.head?_cons, Option.some.injEq] at h
      exact hs.2.1 (h ▸ List.mem_cons_self _ _)
  have hpos : 0 < s.length := List.length_pos.mpr hs.1
  obtain ⟨k, hk⟩ : ∃ k, (s ++ slashed ss ++ '/' :: slashed ts).length = k + 1 :=
    ⟨(s ++ slashed ss ++ '/' :: slashed ts).length - 1, by
      simp only [List.length_append, List.length_cons]; omega⟩
  have htail : slashed ss ++ '/' :: slashed ts = [] ∨
      ∃ u, slashed ss ++ '/' :: slashed ts = '/' :: u :=
    slashed_append_tail ss _ (Or.inr ⟨_, rfl⟩)
  have hloop : cleanLoop false (s ++ slashed ss ++ '/' :: slashed ts).length
      (s ++ slashed ss ++ '/' :: slashed ts) [] 0 =
      (slashed ts).reverse ++ ((slashed ss).reverse ++ s.reverse) := by
    rw [hk, List.append_assoc, cleanLoop_seg_tail k s _ [] 0 hs htail]
    simp only [List.length_nil, ne_eq, not_true_eq_false, if_false, List.append_nil]
    have hklen : (slashed ss ++ '/' :: slashed ts).length ≤ k := by
      simp only [List.length_append, List.length_cons] at hk ⊢
      omega
    obtain ⟨fuel', hle, heq⟩ := cleanLoop_slashed_tail ss hss ('/' :: slashed ts)
      (Or.inr ⟨_, rfl⟩) k s.reverse 0 hklen (by simpa using hs.1)
    rw [heq]
    obtain ⟨f, rfl⟩ : ∃ f, fuel' = f + 1 := ⟨fuel' - 1, by
      simp only [List.length_cons] at hle; omega⟩
    rw [cleanLoop_slash]
    exact cleanLoop_slashed ts hts f _ 0 (by simp only [List.length_cons] at hle; omega)
      (by simp only [ne_eq, List.append_eq_nil, List.reverse_eq_nil_iff, not_and]
          exact fun _ => hs.1)
  have hout : (slashed ts).reverse ++ ((slashed ss).reverse ++ s.reverse) ≠ [] := by
    simp only [ne_eq, List.append_eq_nil, List.reverse_eq_nil_iff, not_and]
    exact fun _ _ => hs.1
  simp only [Clean, hne, if_false, hhead, decide_False, Bool.false_eq_true, hloop, hout]
  simp [slashed_append]

theorem Base_of_seg (pre b : List Char) (hb : b ≠ []) (hslash : '/' ∉ b)
    (hpre : pre = [] ∨ ∃ p, pre = p ++ ['/']) : Base (String.mk (pre ++ b)) = String.mk b := by
  have hne : pre ++ b ≠ [] := by simp [hb]
  have hrev : (pre ++ b).reverse = b.reverse ++ pre.reverse := List.reverse_append _ _
  have htail : pre.reverse = [] ∨ ∃ u, pre.reverse = '/' :: u := by
    rcases hpre with rfl | ⟨p, rfl⟩
    · exact Or.inl rfl
    · exact Or.inr ⟨p.reverse, by simp⟩
  have hdrop : (b.reverse ++ pre.reverse).dropWhile (fun x => x == '/') =
      b.reverse ++ pre.reverse := by
    cases hbr : b.reverse with
    | nil => exact absurd (List.reverse_eq_nil_iff.mp hbr) hb
    | cons c cs =>
      have hc : c ≠ '/' := by
        intro h
        apply hslash
        rw [← List.mem_reverse, hbr, h]
        exact List.mem_cons_self _ _
      simp [List.dropWhile_cons, hc]
  have htake := (takeWhile_seg_tail b.reverse pre.reverse
    (by rwa [List.mem_reverse]) htail).1
  simp only [Base, hne, if_false, hrev, hdrop, htake, List.reverse_reverse, hb]

theorem TrimSuffix_of_append (pre b : List Char) :
    TrimSuffix (String.mk (pre ++ b)) (String.mk b) = String.mk pre := by
  have hsuf : HasSuffix (String.mk (pre ++ b)) (String.mk b) = true := by
    simp [HasSuffix]
  simp [TrimSuffix, hsuf]

theorem Dir_of_seg (pre b : List Char) (hslash : '/' ∉ b)
    (hpre : pre = [] ∨ ∃ p, pre = p ++ ['/']) :
    Dir (String.mk (pre ++ b)) = Clean (String.mk pre) := by
  have htail : pre.reverse = [] ∨ ∃ u, pre.reverse = '/' :: u := by
    rcases hpre with rfl | ⟨p, rfl⟩
    · exact Or.inl rfl
    · exact Or.inr ⟨p.reverse, by simp⟩
  have hdrop := (takeWhile_seg_tail b.reverse pre.reverse (by rwa [List.mem_reverse]) htail).2
  simp only [Dir, List.reverse_append, hdrop, List.reverse_reverse]

theorem Sprintf_pb_go (pkg : String) : Sprintf "%s.pb.go" [pkg] = pkg ++ ".pb.go" := by
  apply String.ext
  simp [Sprintf, sprintfLoop, String.data_append]

theorem goodSeg_pb_go (pkg : String) (hslash : '/' ∉ pkg.data) :
    GoodSeg (pkg ++ ".pb.go").data := by
  have hlen : (pkg ++ ".pb.go").data.length = pkg.data.length + 6 := by
    simp [String.data_append]
  refine ⟨?_, ?_, ?_, ?_⟩
  · intro h; rw [h] at hlen; simp at hlen
  · simp only [String.data_append, List.mem_append, not_or]
    exact ⟨hslash, by decide⟩
  · intro h; rw [h] at hlen; simp at hlen
  · intro h; rw [h] at hlen; simp at hlen

theorem fileName_without_directory (P pkg : String)
    (hpkg : pkg ≠ "" ∧ '/' ∉ pkg.data ∧ pkg ≠ "." ∧ pkg ≠ "..") (hP : '/' ∉ P.data) :
    filepathJoin [TrimSuffix P (Base P), "codegen", pkg, pkg ++ ".pb.go"] =
      "codegen/" ++ pkg ++ "/" ++ pkg ++ ".pb.go" := by
  have htrim : TrimSuffix P (Base P) = "" := by
    by_cases hP0 : P.data = []
    · have hempty : P = "" := String.ext hP0
      subst hempty
      decide
    · have hB : Base P = P := Base_of_seg [] P.data hP0 hP (Or.inl rfl)
      rw [hB]
      exact TrimSuffix_of_append [] P.data
  have hdrop : ["", "codegen", pkg, pkg ++ ".pb.go"].dropWhile (fun e => e == "") =
      ["codegen", pkg, pkg ++ ".pb.go"] := by
    rw [List.dropWhile_cons_of_pos (by decide), List.dropWhile_cons_of_neg (by decide)]
  have hjoin : stringsJoin ["codegen", pkg, pkg ++ ".pb.go"] "/" =
      String.mk ("codegen".data ++ slashed [pkg.data, (pkg ++ ".pb.go").data]) := by
    apply String.ext
    show List.intercalate ['/'] ["codegen".data, pkg.data, (pkg ++ ".pb.go").data] = _
    rw [intercalate_slash_cons]
  have hrhs : "codegen/" ++ pkg ++ "/" ++ pkg ++ ".pb.go" =
      String.mk ("codegen".data ++ slashed [pkg.data, (pkg ++ ".pb.go").data]) := by
    apply String.ext
    simp [String.data_append, slashed]
  have hsegs : ∀ t ∈ [pkg.data, (pkg ++ ".pb.go").data], GoodSeg t := by
    intro t ht
    simp only [List.mem_cons, List.mem_singleton, List.not_mem_nil, or_false] at ht
    rcases ht with rfl | rfl
    · exact goodSeg_of_string pkg hpkg
    · exact goodSeg_pb_go pkg hpkg.2.1
  rw [htrim]
  unfold filepathJoin
  rw [hdrop]
  show Clean (stringsJoin ["codegen", pkg, pkg ++ ".pb.go"] "/") = _
  rw [hjoin, hrhs]
  exact Clean_of_goodSegs _ _ ⟨by decide, by decide, by decide, by decide⟩ hsegs

theorem fileName_with_directory (P pkg : String) (dirs : List String) (base : String)
    (hpkg : pkg ≠ "" ∧ '/' ∉ pkg.data ∧ pkg ≠ "." ∧ pkg ≠ "..")
    (hne : dirs ≠ []) (hdirs : ∀ s ∈ dirs, s ≠ "" ∧ '/' ∉ s.data ∧ s ≠ "." ∧ s ≠ "..")
    (hbase : base ≠ "") (hslash : '/' ∉ base.data)
    (hP : P = stringsJoin dirs "/" ++ "/" ++ base) :
    Dir P = stringsJoin dirs "/" ∧
      filepathJoin [TrimSuffix P (Base P), "codegen", pkg, pkg ++ ".pb.go"] =
        stringsJoin dirs "/" ++ "/codegen/" ++ pkg ++ "/" ++ pkg ++ ".pb.go" := by
  cases dirs with
  | nil => exact absurd rfl hne
  | cons d0 ds =>
    have hd : (stringsJoin (d0 :: ds) "/").data = d0.data ++ slashed (ds.map String.data) := by
      show List.intercalate ['/'] (d0.data :: ds.map String.data) = _
      exact intercalate_slash_cons _ _
    have hPdata : P = String.mk ((d0.data ++ slashed (ds.map String.data) ++ ['/']) ++ base.data) := by
      rw [hP]
      apply String.ext
      simp [String.data_append, hd]
    have hb : base.data ≠ [] := fun h => hbase (String.ext h)
    have hpre : d0.data ++ slashed (ds.map String.data) ++ ['/'] = [] ∨
        ∃ p, d0.data ++ slashed (ds.map String.data) ++ ['/'] = p ++ ['/'] := Or.inr ⟨_, rfl⟩
    have hd0 : GoodSeg d0.data := goodSeg_of_string d0 (hdirs d0 (List.mem_cons_self _ _))
    have hds : ∀ t ∈ ds.map String.data, GoodSeg t := by
      intro t ht
      rw [List.mem_map] at ht
      obtain ⟨u, hu, rfl⟩ := ht
      exact goodSeg_of_string u (hdirs u (List.mem_cons_of_mem _ hu))
    have hBase : Base P = base := by
      rw [hPdata]
      exact Base_of_seg _ _ hb hslash hpre
    have hTrim : TrimSuffix P base =
        String.mk (d0.data ++ slashed (ds.map String.data) ++ ['/']) := by
      rw [hPdata]
      exact TrimSuffix_of_append _ _
    have hDir : Dir P = stringsJoin (d0 :: ds) "/" := by
      rw [hPdata, Dir_of_seg _ _ hslash hpre]
      have := Clean_of_goodSegs_gap d0.data (ds.map String.data) [] hd0 hds
        (fun t ht => absurd ht (List.not_mem_nil t))
      simp only [slashed, List.append_nil] at this
      rw [this]
      exact String.ext hd.symm
    refine ⟨hDir, ?_⟩
    have hsegs : ∀ t ∈ ["codegen".data, pkg.data, (pkg ++ ".pb.go").data], GoodSeg t := by
      intro t ht
      simp only [List.mem_cons, List.mem_singleton, List.not_mem_nil, or_false] at ht
      rcases ht with rfl | rfl | rfl
      · exact ⟨by decide, by decide, by decide, by decide⟩
      · exact goodSeg_of_string pkg hpkg
      · exact goodSeg_pb_go pkg hpkg.2.1
    have hdrop : [String.mk (d0.data ++ slashed (ds.map String.data) ++ ['/']), "codegen", pkg,
        pkg ++ ".pb.go"].dropWhile (fun e => e == "") =
        [String.mk (d0.data ++ slashed (ds.map String.data) ++ ['/']), "codegen", pkg,
          pkg ++ ".pb.go"] := by
      rw [List.dropWhile_cons_of_neg]
      simp only [beq_iff_eq, String.ext_iff]
      simp
    have hjoin : stringsJoin [String.mk (d0.data ++ slashed (ds.map String.data) ++ ['/']),
        "codegen", pkg, pkg ++ ".pb.go"] "/" =
        String.mk (d0.data ++ slashed (ds.map String.data) ++
          '/' :: slashed ["codegen".data, pkg.data, (pkg ++ ".pb.go").data]) := by
      apply String.ext
      show List.intercalate ['/'] [d0.data ++ slashed (ds.map String.data) ++ ['/'],
        "codegen".data, pkg.data, (pkg ++ ".pb.go").data] = _
      rw [intercalate_slash_cons]
      simp [slashed]
    have hrhs : stringsJoin (d0 :: ds) "/" ++ "/codegen/" ++ pkg ++ "/" ++ pkg ++ ".pb.go" =
        String.mk (d0.data ++ slashed (ds.map String.data ++
          ["codegen".data, pkg.data, (pkg ++ ".pb.go").data])) := by
      apply String.ext
      simp [String.data_append, hd, slashed_append, slashed]
    rw [hBase, hTrim]
    unfold filepathJoin
    rw [hdrop]
    show Clean (stringsJoin [String.mk (d0.data ++ slashed (ds.map String.data) ++ ['/']),
      "codegen", pkg, pkg ++ ".pb.go"] "/") = _
    rw [hjoin, hrhs]
    exact Clean_of_goodSegs_gap _ _ _ hd0 hds hsegs

/-- C13 (as stated) fails: for the base path `api`, which has no directory
part, the file name is `codegen/codegen_x/codegen_x.pb.go`, while
`dirname(P)/codegen/<pkg>/<pkg>.pb.go` is `./codegen/codegen_x/codegen_x.pb.go`;
and for the base path `/` the file name is the same relative path, while
the directory of `/` joined with the three elements is
`/codegen/codegen_x/codegen_x.pb.go`. -/
theorem NewGeneratedFile_dirname_counterexample :
    (NewGeneratedFile samplePlugin (fileAt "api") "codegen_x").filename =
        "codegen/codegen_x/codegen_x.pb.go" ∧
      Dir "api" ++ "/codegen/" ++ "codegen_x" ++ "/" ++ "codegen_x" ++ ".pb.go" =
        "./codegen/codegen_x/codegen_x.pb.go" ∧
      (NewGeneratedFile samplePlugin (fileAt "api") "codegen_x").filename ≠
        Dir "api" ++ "/codegen/" ++ "codegen_x" ++ "/" ++ "codegen_x" ++ ".pb.go" ∧
      (NewGeneratedFile samplePlugin (fileAt "/") "codegen_x").filename =
        "codegen/codegen_x/codegen_x.pb.go" ∧
      filepathJoin [Dir "/", "codegen", "codegen_x", "codegen_x" ++ ".pb.go"] =
        "/codegen/codegen_x/codegen_x.pb.go" := by
  refine ⟨by decide, by decide, by decide, by decide, by decide⟩

/-- C13 (amended): the file name computed by `NewGeneratedFile` is
`filepath.Join(strings.TrimSuffix(P, filepath.Base(P)), "codegen", pkg, pkg + ".pb.go")`.
For a package name that is one clean path element this is
`codegen/<pkg>/<pkg>.pb.go` when `P` has no slash, and
`dirname(P)/codegen/<pkg>/<pkg>.pb.go` when `P` is a relative directory of
clean path elements followed by a slash and a last element. -/
theorem NewGeneratedFile_filename (gen : protogen.Plugin) (file : protogen.File) (pkg : String) :
    (NewGeneratedFile gen file pkg).filename =
        filepathJoin [TrimSuffix file.GeneratedFilenamePrefix (Base file.GeneratedFilenamePrefix),
          "codegen", pkg, pkg ++ ".pb.go"] ∧
      ((pkg ≠ "" ∧ '/' ∉ pkg.data ∧ pkg ≠ "." ∧ pkg ≠ "..") →
        ('/' ∉ file.GeneratedFilenamePrefix.data →
          (NewGeneratedFile gen file pkg).filename = "codegen/" ++ pkg ++ "/" ++ pkg ++ ".pb.go") ∧
        (∀ (dirs : List String) (base : String), dirs ≠ [] →
          (∀ s ∈ dirs, s ≠ "" ∧ '/' ∉ s.data ∧ s ≠ "." ∧ s ≠ "..") →
          base ≠ "" → '/' ∉ base.data →
          file.GeneratedFilenamePrefix = stringsJoin dirs "/" ++ "/" ++ base →
          Dir file.GeneratedFilenamePrefix = stringsJoin dirs "/" ∧
          (NewGeneratedFile gen file pkg).filename =
            Dir file.GeneratedFilenamePrefix ++ "/codegen/" ++ pkg ++ "/" ++ pkg ++ ".pb.go")) := by
  have hname : (NewGeneratedFile gen file pkg).filename =
      filepathJoin [TrimSuffix file.GeneratedFilenamePrefix (Base file.GeneratedFilenamePrefix),
        "codegen", pkg, pkg ++ ".pb.go"] := by
    show filepathJoin [TrimSuffix file.GeneratedFilenamePrefix
      (Base file.GeneratedFilenamePrefix), "codegen", pkg, Sprintf "%s.pb.go" [pkg]] = _
    rw [Sprintf_pb_go]
  refine ⟨hname, ?_⟩
  intro hpkg
  refine ⟨?_, ?_⟩
  · intro hP
    rw [hname]
    exact fileName_without_directory _ pkg hpkg hP
  · intro dirs base hne hdirs hbase hslash hP
    obtain ⟨hdir, hfile⟩ := fileName_with_directory _ pkg dirs base hpkg hne hdirs hbase hslash hP
    exact ⟨hdir, by rw [hname, hfile, hdir]⟩

/-- C13 (amended) at the base path `pkg/api.pb.go` and the package
`codegen_x`: the file name is `pkg/codegen/codegen_x/codegen_x.pb.go`. -/
theorem NewGeneratedFile_filename_witness :
    Dir "pkg/api.pb.go" = "pkg" ∧
      (NewGeneratedFile samplePlugin (fileAt "pkg/api.pb.go") "codegen_x").filename =
        Dir "pkg/api.pb.go" ++ "/codegen/" ++ "codegen_x" ++ "/" ++ "codegen_x" ++ ".pb.go" ∧
      (NewGeneratedFile samplePlugin (fileAt "pkg/api.pb.go") "codegen_x").filename =
        "pkg/codegen/codegen_x/codegen_x.pb.go" ∧
      (NewGeneratedFile samplePlugin (fileAt "api") "codegen_x").filename =
        "codegen/" ++ "codegen_x" ++ "/" ++ "codegen_x" ++ ".pb.go" :=
  ⟨by decide,
    (((NewGeneratedFile_filename samplePlugin (fileAt "pkg/api.pb.go") "codegen_x").2
      (by decide)).2 ["pkg"] "api.pb.go" (by decide) (by decide) (by decide) (by decide)
      (by decide)).2,
    by decide,
    ((NewGeneratedFile_filename samplePlugin (fileAt "api") "codegen_x").2 (by decide)).1
      (by decide)⟩

/-! ## The event locator: which container, which names, which messages -/

theorem find?_append_of_first {α : Type} (p : α → Bool) (pre post : List α) (m : α)
    (hpre : ∀ x ∈ pre, p x = false) (hm : p m = true) :
    (pre ++ m :: post).find? p = some m := by
  induction pre with
  | nil => simp [List.find?_cons, hm]
  | cons x xs ih =>
    have hx : p x = false := hpre x (List.mem_cons_self _ _)
    simp only [List.cons_append, List.find?_cons, hx]
    exact ih (fun y hy => hpre y (List.mem_cons_of_mem _ hy))

theorem GetEvents_ok_inv (file : protogen.File) (evs : List protogen.Message)
    (h : GetEvents file = Except.ok evs) :
    ∃ m o, file.Messages.find? (fun msg => msg.GoIdent.GoName == "GetEventsResponse") = some m ∧
      m.Oneofs.find? (fun oneof => oneof.Desc.Name == "event") = some o ∧
      evs = file.Messages.filter (fun msg => isMemberName o.Fields msg.Desc.Name) := by
  cases hm : file.Messages.find? (fun msg => msg.GoIdent.GoName == "GetEventsResponse") with
  | none => simp [GetEvents, hm] at h
  | some m =>
    cases ho : m.Oneofs.find? (fun oneof => oneof.Desc.Name == "event") with
    | none => simp [GetEvents, hm, ho] at h
    | some o =>
      rw [GetEvents_found file m o hm ho] at h
      injection h with h
      exact ⟨m, o, rfl, ho, h.symm⟩

/-- C16: of several top-level messages with the Go name `GetEventsResponse`
only the first counts, and of its oneofs named `event` only the first: when
the first such message has no oneof `event` the result is the
union-not-found error, and otherwise the valid names are the local names of
the members of its first oneof `event`, whatever the later messages and
oneofs are. -/
theorem GetEvents_first_container_only (file : protogen.File) (pre post : List protogen.Message)
    (m : protogen.Message) (hfile : file.Messages = pre ++ m :: post)
    (hpre : ∀ x ∈ pre, x.GoIdent.GoName ≠ "GetEventsResponse")
    (hm : m.GoIdent.GoName = "GetEventsResponse") :
    ((∀ oneof ∈ m.Oneofs, oneof.Desc.Name ≠ "event") →
        GetEvents file = Except.error "Unable to find GetEventsResponse.event") ∧
      (∀ (before after : List protogen.Oneof) (o : protogen.Oneof),
        m.Oneofs = before ++ o :: after → (∀ x ∈ before, x.Desc.Name ≠ "event") →
        o.Desc.Name = "event" →
        GetEvents file = Except.ok (file.Messages.filter
          (fun msg => decide (∃ f ∈ o.Fields, localName f = msg.Desc.Name)))) := by
  have hfind : file.Messages.find? (fun msg => msg.GoIdent.GoName == "GetEventsResponse") =
      some m := by
    rw [hfile]
    apply find?_append_of_first
    · intro x hx
      simpa using hpre x hx
    · simpa using hm
  refine ⟨?_, ?_⟩
  · intro hno
    have hnone : m.Oneofs.find? (fun oneof => oneof.Desc.Name == "event") = none := by
      rw [List.find?_eq_none]
      intro oneof hin
      simpa using hno oneof hin
    simp [GetEvents, hfind, hnone, errNoEventOneof]
  · intro before after o hone hbefore ho
    have hfindo : m.Oneofs.find? (fun oneof => oneof.Desc.Name == "event") = some o := by
      rw [hone]
      apply find?_append_of_first
      · intro x hx
        simpa using hbefore x hx
      · simpa using ho
    rw [GetEvents_found file m o hfind hfindo]
    congr 1
    apply List.filter_congr
    intro msg _
    rw [Bool.eq_iff_iff, isMemberName_iff]
    simp

/-- C16 at two schemas with two messages of Go name `GetEventsResponse`. -/
theorem GetEvents_first_container_only_witness :
    GetEvents lateUnionFile = Except.error "Unable to find GetEventsResponse.event" ∧
      GetEvents shadowedFile = Except.ok (shadowedFile.Messages.filter
        (fun msg => decide (∃ f ∈ [unionMember "GetEventsResponse_A"],
          localName f = msg.Desc.Name))) ∧
      GetEvents shadowedFile = Except.ok [plainMessage "A"] :=
  ⟨(GetEvents_first_container_only lateUnionFile [] _ (containerMessage "payload" sampleMembers)
      rfl (by decide) (by decide)).1 (by decide),
    (GetEvents_first_container_only shadowedFile [] _ _ rfl (by decide) (by decide)).2 []
      [{ Desc := { Name := "event" }, Fields := [unionMember "GetEventsResponse_B"] }]
      { Desc := { Name := "event" }, Fields := [unionMember "GetEventsResponse_A"] }
      rfl (by decide) (by decide),
    by rfl⟩

theorem TrimPrefix_append (pre x : String) : TrimPrefix (pre ++ x) pre = x := by
  have hpre : HasPrefix (pre ++ x) pre = true := by
    simp [HasPrefix, String.data_append]
  simp [TrimPrefix, hpre, String.data_append]

theorem append_ne_self (x : String) : "GetEventsResponse_" ++ x ≠ x := by
  intro h
  have hlen := congrArg (fun s : String => s.data.length) h
  simp [String.data_append] at hlen
  omega

/-- C17: the local name of a union member is its type name with the text
`GetEventsResponse_` taken off its front once, and only when the name starts
with it: `GetEventsResponse_X` gives `X`, a name that does not start with
the text is kept whole, and `GetEventsResponse_GetEventsResponse_X` gives
`GetEventsResponse_X`, not `X`. A message of the file is returned when its
declared name is the local name of the member, and when the member is the
only one no other message is. -/
theorem localName_trims_once (f : protogen.Field) :
    (∀ x : String, f.GoIdent.GoName = "GetEventsResponse_" ++ x → localName f = x) ∧
      (HasPrefix f.GoIdent.GoName "GetEventsResponse_" = false →
        localName f = f.GoIdent.GoName) ∧
      (∀ x : String, f.GoIdent.GoName = "GetEventsResponse_" ++ ("GetEventsResponse_" ++ x) →
        localName f = "GetEventsResponse_" ++ x ∧ localName f ≠ x) ∧
      (∀ (file : protogen.File) (m : protogen.Message) (o : protogen.Oneof)
        (evs : List protogen.Message),
        file.Messages.find? (fun msg => msg.GoIdent.GoName == "GetEventsResponse") = some m →
        m.Oneofs.find? (fun oneof => oneof.Desc.Name == "event") = some o →
        GetEvents file = Except.ok evs →
        (f ∈ o.Fields → ∀ msg ∈ file.Messages, msg.Desc.Name = localName f → msg ∈ evs) ∧
        (o.Fields = [f] → ∀ msg ∈ evs, msg.Desc.Name = localName f)) := by
  refine ⟨?_, ?_, ?_, ?_⟩
  · intro x hx
    rw [localName, hx, TrimPrefix_append]
  · intro hno
    simp [localName, TrimPrefix, hno]
  · intro x hx
    have hname : localName f = "GetEventsResponse_" ++ x := by
      rw [localName, hx, TrimPrefix_append]
    exact ⟨hname, by rw [hname]; exact append_ne_self x⟩
  · intro file m o evs hm ho hevs
    rw [GetEvents_found file m o hm ho] at hevs
    injection hevs with hevs
    subst hevs
    refine ⟨?_, ?_⟩
    · intro hf msg hmsg hname
      rw [List.mem_filter, isMemberName_iff]
      exact ⟨hmsg, f, hf, hname.symm⟩
    · intro hfields msg hmsg
      rw [List.mem_filter, isMemberName_iff, hfields] at hmsg
      obtain ⟨_, g, hg, hname⟩ := hmsg
      rw [List.mem_singleton] at hg
      rw [← hname, hg]

/-- C17 at the members `GetEventsResponse_X`, `X` and
`GetEventsResponse_GetEventsResponse_X`, and at the schema `doubledFile`,
where the last member selects the message `GetEventsResponse_X` and not `X`. -/
theorem localName_trims_once_witness :
    localName (unionMember "GetEventsResponse_X") = "X" ∧
      localName (unionMember "X") = "X" ∧
      (localName (unionMember "GetEventsResponse_GetEventsResponse_X") = "GetEventsResponse_X" ∧
        localName (unionMember "GetEventsResponse_GetEventsResponse_X") ≠ "X") ∧
      GetEvents doubledFile = Except.ok [plainMessage "GetEventsResponse_X"] ∧
      plainMessage "GetEventsResponse_X" ∈ [plainMessage "GetEventsResponse_X"] :=
  ⟨(localName_trims_once (unionMember "GetEventsResponse_X")).1 "X" (by decide),
    (localName_trims_once (unionMember "X")).2.1 (by decide),
    (localName_trims_once (unionMember "GetEventsResponse_GetEventsResponse_X")).2.2.1 "X"
      (by decide),
    by rfl,
    ((localName_trims_once (unionMember "GetEventsResponse_GetEventsResponse_X")).2.2.2
      doubledFile (containerMessage "event" [unionMember "GetEventsResponse_GetEventsResponse_X"])
      { Desc := { Name := "event" },
        Fields := [unionMember "GetEventsResponse_GetEventsResponse_X"] }
      [plainMessage "GetEventsResponse_X"] (by decide) (by decide) (by rfl)).1 (by decide)
      (plainMessage "GetEventsResponse_X") (by decide) (by decide)⟩

/-- C18: every descriptor that `GetEvents` returns is one of the top-level
messages of the file, and the returned list is a sublist of `file.Messages`:
it is not longer than `file.Messages`, and it has no duplicates when
`file.Messages` has none. -/
theorem GetEvents_sublist (file : protogen.File) (evs : List protogen.Message)
    (h : GetEvents file = Except.ok evs) :
    evs.Sublist file.Messages ∧
      (∀ msg ∈ evs, msg ∈ file.Messages) ∧
      evs.length ≤ file.Messages.length ∧
      (file.Messages.Nodup → evs.Nodup) := by
  obtain ⟨m, o, _, _, rfl⟩ := GetEvents_ok_inv file evs h
  have hsub : (file.Messages.filter (fun msg => isMemberName o.Fields msg.Desc.Name)).Sublist
      file.Messages := List.filter_sublist _
  exact ⟨hsub, fun msg hmsg => hsub.subset hmsg, hsub.length_le, fun hnd => hnd.sublist hsub⟩

/-- C18 at the sample schema, of whose four messages two are returned. -/
theorem GetEvents_sublist_witness :
    GetEvents sampleFile = Except.ok [plainMessage "B", plainMessage "A"] ∧
      [plainMessage "B", plainMessage "A"].Sublist sampleFile.Messages ∧
      (∀ msg ∈ [plainMessage "B", plainMessage "A"], msg ∈ sampleFile.Messages) ∧
      [plainMessage "B", plainMessage "A"].length ≤ sampleFile.Messages.length ∧
      (sampleFile.Messages.Nodup → [plainMessage "B", plainMessage "A"].Nodup) :=
  ⟨by rfl, GetEvents_sublist sampleFile [plainMessage "B", plainMessage "A"] (by rfl)⟩

end Tetragon.Common
